import Mathlib

/-!
# Verification of the ccscanner dependency-scanning core

A shallow embedding, in Lean 4, of the parts of the ccscanner repository
(Go) that the checked claims are about:

* the content-addressed extraction cache (`internal/cache`),
* the dependency analyzer: version-conflict detection, cycle detection and
  version normalization (`internal/analyzer`),
* the resolver: constraint checking, version selection and topological
  sorting (`internal/analyzer`, resolver file),
* the scan engine: directory walk, hidden-file pruning and extractor
  dispatch (`internal/scanner/scanner.go`, `pkg/utils`),
* the Ninja manifest extractor (`internal/extractor/ninja_extractor.go`).

Go `string`s are Lean `String`s; functions that inspect strings character
by character work over `String.data : List Char`.  Go maps are modelled as
association lists in insertion order (Go's map iteration order is
unspecified; the theorems below do not depend on the chosen order).  Go
`time.Time` values are seconds since an epoch (`Nat`).  File systems are
functions `String → Option String` from a path to the file's content.
Fallible Go functions return `Except String _` or `Option _`.
-/

/-- A dependency record (`models.Dependency`).  The Go struct has many
more fields; this embedding keeps the ones read or written by the code
under verification (name, version, type, scope, source, parent, rule,
file path, line, and the nested child records used by the analyzer and
resolver). -/
inductive Dependency where
  | mk (name version type scope source parent rule filePath : String)
       (line : Nat) (dependencies : List Dependency)

def Dependency.name : Dependency → String
  | .mk n _ _ _ _ _ _ _ _ _ => n

def Dependency.version : Dependency → String
  | .mk _ v _ _ _ _ _ _ _ _ => v

def Dependency.type : Dependency → String
  | .mk _ _ t _ _ _ _ _ _ _ => t

def Dependency.scope : Dependency → String
  | .mk _ _ _ s _ _ _ _ _ _ => s

def Dependency.source : Dependency → String
  | .mk _ _ _ _ s _ _ _ _ _ => s

def Dependency.parent : Dependency → String
  | .mk _ _ _ _ _ p _ _ _ _ => p

def Dependency.rule : Dependency → String
  | .mk _ _ _ _ _ _ r _ _ _ => r

def Dependency.filePath : Dependency → String
  | .mk _ _ _ _ _ _ _ f _ _ => f

def Dependency.line : Dependency → Nat
  | .mk _ _ _ _ _ _ _ _ l _ => l

def Dependency.dependencies : Dependency → List Dependency
  | .mk _ _ _ _ _ _ _ _ _ d => d

/-- A record with only a name, a version and child records set, all other
fields zeroed — the shape the analyzer and resolver tests build. -/
def Dependency.simple (name version : String) (children : List Dependency := []) :
    Dependency :=
  .mk name version "" "" "" "" "" "" 0 children

/-- Association-list lookup, the model of reading a Go map. -/
def lookupA {α : Type} : List (String × α) → String → Option α
  | [], _ => none
  | (k, v) :: rest, key => if k = key then some v else lookupA rest key

/-- Association-list insert-or-replace, the model of `m[k] = v` on a Go
map. -/
def upsertA {α : Type} : List (String × α) → String → α → List (String × α)
  | [], key, v => [(key, v)]
  | (k, v') :: rest, key, v =>
    if k = key then (key, v) :: rest else (k, v') :: upsertA rest key v

/-! ## Content-addressed cache (`internal/cache`, `Cache`) -/

/-- The file system visible to the cache: a map from path to content.
`none` stands for a path that cannot be `Stat`ed or opened. -/
def FileSystem := String → Option String

/-- SHA-256 digest of a file's content (`hashFile`).  The digest is
modelled as an injective function of the content — the code only ever
compares digests for equality, so an ideal (collision-free) hash is the
content itself. -/
def sha256Hex (content : String) : String := content

/-- `hashFile`: open the file and hash its content; an unreadable path is
an error (`none`). -/
def hashFile (fs : FileSystem) (path : String) : Option String :=
  (fs path).map sha256Hex

/-- `CacheEntry`: content hash, update time and the memoized records. -/
structure CacheEntry where
  hash : String
  updateTime : Nat
  deps : List Dependency

/-- The cache's staleness window: seven days, in seconds
(`7*24*time.Hour`). -/
def cacheTTL : Nat := 7 * 24 * 60 * 60

/-- Cache state: the in-memory entry map and the contents of the
persisted `cache.json` file.  `save()` copies `entries` to `persisted`. -/
structure Cache where
  entries : List (String × CacheEntry)
  persisted : List (String × CacheEntry)

/-- `Cache.Get`: hash the file's current content, look the path up, and
return the records iff the stored hash matches and the entry is within
the staleness window.  The Go method holds a read lock and never writes,
which the embedding makes explicit by returning the (unchanged) cache
state alongside the result. -/
def Cache.get (c : Cache) (fs : FileSystem) (now : Nat) (path : String) :
    Option (List Dependency) × Cache :=
  match hashFile fs path with
  | none => (none, c)
  | some h =>
    match lookupA c.entries path with
    | none => (none, c)
    | some entry =>
      if entry.hash ≠ h then (none, c)
      else if now - entry.updateTime > cacheTTL then (none, c)
      else (some entry.deps, c)

/-- `Cache.Set`: hash the file's current content (failing if the file is
unreadable, leaving the cache untouched), store the entry under the path
and persist the table (`save()`). -/
def Cache.set (c : Cache) (fs : FileSystem) (now : Nat) (path : String)
    (deps : List Dependency) : Except String Cache :=
  match hashFile fs path with
  | none => .error "hash failed"
  | some h =>
    let entries := upsertA c.entries path ⟨h, now, deps⟩
    .ok { entries := entries, persisted := entries }

/-- `Cache.Clear`: empty the in-memory map and remove the persisted
file. -/
def Cache.clear (_c : Cache) : Cache :=
  { entries := [], persisted := [] }

/-- `Cache.RemoveExpired`: evict entries older than the staleness window;
persist only when something was evicted.  Returns the eviction count. -/
def Cache.removeExpired (c : Cache) (now : Nat) : Nat × Cache :=
  let kept := c.entries.filter fun p => ¬ (now - p.2.updateTime > cacheTTL)
  let count := c.entries.length - kept.length
  if count > 0 then (count, { entries := kept, persisted := kept })
  else (count, c)

/-- The entry-retention loop of `Cache.Validate`: drop entries whose path
no longer exists or whose content hash changed. -/
def validateEntries (fs : FileSystem) :
    List (String × CacheEntry) → List (String × CacheEntry)
  | [] => []
  | (p, e) :: rest =>
    match fs p with
    | none => validateEntries fs rest
    | some content =>
      if sha256Hex content ≠ e.hash then validateEntries fs rest
      else (p, e) :: validateEntries fs rest

/-- `Cache.Validate`: re-hash every referenced path, evict stale entries
and persist the result. -/
def Cache.validate (c : Cache) (fs : FileSystem) : Cache :=
  let kept := validateEntries fs c.entries
  { entries := kept, persisted := kept }

/-! ## Ninja extractor (`internal/extractor/ninja_extractor.go`)

The extractor reads the file line by line; the embedding therefore takes
the file as a list of lines.  The four regular expressions of the source
are translated into character-level matchers with the same acceptance
conditions and capture groups (`Go \s` is the whitespace class below). -/

/-- Go's `\s` character class (also what `strings.TrimSpace` and
`strings.Fields` treat as space on ASCII input). -/
def goIsSpace (c : Char) : Bool :=
  c = ' ' || c = '\t' || c = '\n' || c = '\r' || c.val = 11 || c.val = 12

/-- `strings.TrimSpace`. -/
def goTrimSpace (s : List Char) : List Char :=
  ((s.dropWhile goIsSpace).reverse.dropWhile goIsSpace).reverse

/-- Worker for `goFields`: `acc` is the word being accumulated. -/
def goFieldsGo : List Char → List Char → List (List Char)
  | [], acc => if acc.isEmpty then [] else [acc]
  | c :: t, acc =>
    if goIsSpace c then
      if acc.isEmpty then goFieldsGo t [] else acc :: goFieldsGo t []
    else goFieldsGo t (acc ++ [c])

/-- `strings.Fields`: split around runs of whitespace, no empty fields. -/
def goFields (s : List Char) : List (List Char) :=
  goFieldsGo s []

/-- One pass of `strings.ReplaceAll` with explicit fuel (the fuel is the
input length, which bounds the number of steps). -/
def replaceAllGo (fuel : Nat) (s pat rep : List Char) : List Char :=
  match fuel, s with
  | 0, s => s
  | _ + 1, [] => []
  | fuel + 1, c :: t =>
    if pat.isPrefixOf (c :: t) && !pat.isEmpty then
      rep ++ replaceAllGo fuel ((c :: t).drop pat.length) pat rep
    else c :: replaceAllGo fuel t pat rep

/-- `strings.ReplaceAll`: non-overlapping left-to-right replacement. -/
def replaceAllL (s pat rep : List Char) : List Char :=
  replaceAllGo s.length s pat rep

/-- `expandVariables`: replace `$NAME` and `${NAME}` for every entry of
the local variable table (table in insertion order; Go iterates its map
in unspecified order, which no claim depends on). -/
def ninjaExpandVariables (value : List Char) :
    List (String × String) → List Char
  | [] => value
  | (name, val) :: rest =>
    let v1 := replaceAllL value ('$' :: name.data) val.data
    let v2 := replaceAllL v1 ('$' :: '{' :: (name.data ++ ['}'])) val.data
    ninjaExpandVariables v2 rest

/-- `variableRegex` = `^\s*([^=]+)\s*=\s*([^#]+)(?:#.*)?$`: the line has
an `=`, at least one character before it, and at least one non-`#`
character after it; the captures are the trimmed name and the trimmed
value up to any `#`. -/
def ninjaMatchVariable (line : List Char) : Option (List Char × List Char) :=
  let name := line.takeWhile (· ≠ '=')
  if name.length < line.length ∧ name ≠ [] then
    let afterEq := line.drop (name.length + 1)
    let value := afterEq.takeWhile (· ≠ '#')
    if value ≠ [] then some (goTrimSpace name, goTrimSpace value) else none
  else none

/-- `^KW\s+([^#]+)(?:#.*)?$` for `include` and `subninja`: the keyword,
at least one space, and at least one more character before any `#`; the
capture is the trimmed remainder up to any `#`. -/
def ninjaMatchKeyword (kw : List Char) (line : List Char) : Option (List Char) :=
  if kw.isPrefixOf line then
    let rest := line.drop kw.length
    match rest with
    | [] => none
    | c :: _ =>
      if goIsSpace c then
        let v := rest.takeWhile (· ≠ '#')
        if 2 ≤ v.length then some (goTrimSpace v) else none
      else none
  else none

/-- A matched `build` declaration: outputs, rule, explicit inputs,
implicit inputs. -/
structure NinjaBuildMatch where
  outputs : List (List Char)
  rule : List Char
  inputs : List (List Char)
  implicitDeps : List (List Char)

/-- `buildRuleRegex` =
`^build\s+([^:]+):\s+([^\s]+)\s+([^|#]+)(?:\|\s+([^#]+))?(?:#.*)?$`.
Group 1 is everything between `build` and the first `:` (must begin with
a space and hold at least two characters), group 2 the first
non-whitespace token after the colon's spaces, group 3 the following run
free of `|` and `#` (begins with a space, at least two characters), and
the optional group 4 the run after `|` up to any `#` (same shape).  The
code splits groups 1, 3 and 4 with `strings.Fields`. -/
def ninjaMatchBuild (line : List Char) : Option NinjaBuildMatch :=
  if ("build".data).isPrefixOf line then
    let rest := line.drop 5
    match rest with
    | [] => none
    | c :: _ =>
      if ¬ goIsSpace c then none
      else
        let pre := rest.takeWhile (· ≠ ':')
        if pre.length < rest.length ∧ 2 ≤ pre.length then
          let rest2 := rest.drop (pre.length + 1)
          match rest2 with
          | [] => none
          | c2 :: _ =>
            if ¬ goIsSpace c2 then none
            else
              let afterWs := rest2.dropWhile goIsSpace
              let rule := afterWs.takeWhile (fun d => !goIsSpace d)
              if rule = [] then none
              else
                let rest3 := afterWs.drop rule.length
                match rest3 with
                | [] => none
                | c3 :: _ =>
                  if ¬ goIsSpace c3 then none
                  else
                    let inputsPart := rest3.takeWhile fun d => d ≠ '|' ∧ d ≠ '#'
                    if 2 ≤ inputsPart.length then
                      let rem := rest3.drop inputsPart.length
                      match rem with
                      | [] => some ⟨goFields pre, rule, goFields inputsPart, []⟩
                      | '#' :: _ => some ⟨goFields pre, rule, goFields inputsPart, []⟩
                      | '|' :: rem2 =>
                        let v := rem2.takeWhile (· ≠ '#')
                        match v with
                        | [] => none
                        | cv :: _ =>
                          if goIsSpace cv ∧ 2 ≤ v.length then
                            some ⟨goFields pre, rule, goFields inputsPart, goFields v⟩
                          else none
                      | _ => none
                    else none
        else none
  else none

/-- One line of `NinjaExtractor.Extract`: skip blanks and comments,
then try, in the source's order, the variable, `include`, `subninja`
and `build` patterns.  Returns the records the line emits and the
updated variable table. -/
def ninjaProcessLine (filePath : String) (vars : List (String × String))
    (lineNum : Nat) (rawLine : String) :
    List Dependency × List (String × String) :=
  let line := goTrimSpace rawLine.data
  if line = [] then ([], vars)
  else if line.headD ' ' = '#' then ([], vars)
  else
    match ninjaMatchVariable line with
    | some (name, value) => ([], upsertA vars (String.mk name) (String.mk value))
    | none =>
      match ninjaMatchKeyword "include".data line with
      | some p =>
        ([.mk (String.mk (ninjaExpandVariables p vars)) "" "ninja_include" "" "" "" ""
            filePath lineNum []], vars)
      | none =>
        match ninjaMatchKeyword "subninja".data line with
        | some p =>
          ([.mk (String.mk (ninjaExpandVariables p vars)) "" "ninja_subninja" "" "" "" ""
              filePath lineNum []], vars)
        | none =>
          match ninjaMatchBuild line with
          | some m =>
            let parent := String.mk (m.outputs.headD [])
            let rule := String.mk m.rule
            let explicitDeps := m.inputs.map fun input =>
              Dependency.mk (String.mk (ninjaExpandVariables input vars)) ""
                "ninja_input" "" "" parent rule filePath lineNum []
            let implicits := m.implicitDeps.map fun input =>
              Dependency.mk (String.mk (ninjaExpandVariables input vars)) ""
                "ninja_implicit" "" "" parent rule filePath lineNum []
            (explicitDeps ++ implicits, vars)
          | none => ([], vars)

/-- The scan loop of `NinjaExtractor.Extract` over the file's lines
(line numbers start at 1). -/
def ninjaExtractLines (filePath : String) (vars : List (String × String))
    (lineNum : Nat) : List String → List Dependency
  | [] => []
  | l :: rest =>
    let (deps, vars') := ninjaProcessLine filePath vars lineNum l
    deps ++ ninjaExtractLines filePath vars' (lineNum + 1) rest

/-- `NinjaExtractor.Extract` on an already-read file. -/
def ninjaExtract (filePath : String) (lines : List String) : List Dependency :=
  ninjaExtractLines filePath [] 1 lines

/-- File system for the cache example: one readable manifest. -/
def exFS : FileSystem :=
  fun p => if p = "/m/CMakeLists.txt" then some "find_package(Boost)" else none

/-- The cache example's records. -/
def exDeps : List Dependency := [Dependency.simple "Boost" ""]

/-- The cache state produced by the example `Set`. -/
def exCacheAfter : Cache :=
  ⟨[("/m/CMakeLists.txt", ⟨sha256Hex "find_package(Boost)", 0, exDeps⟩)],
   [("/m/CMakeLists.txt", ⟨sha256Hex "find_package(Boost)", 0, exDeps⟩)]⟩

/-! ## Scan engine (`internal/scanner/scanner.go`, `pkg/utils`)

`Scanner.Scan` walks the target tree with `filepath.Walk`, skips hidden
entries (pruning hidden directories), dispatches the extractor chosen by
`detectFileType`, consults the cache when enabled, and aggregates records
and per-file error messages.  Extractors and the cache perform I/O, so
the embedding abstracts them as oracles: `extract` maps a file path to
the outcome of running its extractor, and `cacheLookup` maps a path to
the result of `cache.Get`.  Worker-pool concurrency only affects the
order of aggregation (unspecified in Go); the embedding aggregates in
walk order. -/

/-- `utils.IsHidden` (the non-Windows branch): a name beginning with a
dot is hidden. -/
def IsHidden (name : String) : Bool :=
  ['.'].isPrefixOf name.data

/-- `filepath.Ext` on a file name: the suffix from the final dot,
including the dot; empty when the name has no dot. -/
def filepathExt (name : String) : String :=
  let rev := name.data.reverse
  let pre := rev.takeWhile (· ≠ '.')
  if pre.length = rev.length then "" else String.mk ('.' :: pre.reverse)

/-- The extractor kinds `detectFileType` can dispatch to. -/
inductive ExtractorKind where
  | cmake | make | conan | vcpkg | submodule | meson | pkgconfig | autoconf | control
  deriving DecidableEq

/-- `Scanner.detectFileType`: the filename/extension switch choosing an
extractor; `none` means the file is skipped. -/
def detectFileType (filename : String) : Option ExtractorKind :=
  let ext := filepathExt filename
  if filename = "CMakeLists.txt" ∨ ext = ".cmake" then some .cmake
  else if filename = "Makefile" ∨ filename = "makefile" then some .make
  else if filename = "conanfile.txt" ∨ filename = "conanfile.py" then some .conan
  else if filename = "vcpkg.json" then some .vcpkg
  else if filename = ".gitmodules" then some .submodule
  else if filename = "meson.build" then some .meson
  else if ext = ".pc" then some .pkgconfig
  else if filename = "configure" ∨ filename = "configure.ac" then some .autoconf
  else if ext = ".dsc" then some .control
  else none

/-- A file tree: what `filepath.Walk` traverses. -/
inductive FSNode where
  | file (name : String)
  | dir (name : String) (children : List FSNode)

def FSNode.name : FSNode → String
  | .file n => n
  | .dir n _ => n

/-- The aggregate scan result (`models.DependencyResult`): the record
list and the error list (the result's counters are derived from them). -/
structure ScanState where
  dependencies : List Dependency
  errors : List String

/-- `AddError`'s message for a failed extraction
(`"Failed to extract dependencies from %s: %v"`). -/
def scanErrMsg (path err : String) : String :=
  "Failed to extract dependencies from " ++ path ++ ": " ++ err

mutual

/-- The body of the `filepath.Walk` callback in `Scanner.Scan` at one
node, given the node's full path: skip hidden entries (pruning hidden
directories), dispatch on `detectFileType`, try the cache when enabled,
run the extractor, and on failure append the error message instead of
aborting. -/
def scanVisit (enableCache : Bool) (cacheLookup : String → Option (List Dependency))
    (extract : String → Except String (List Dependency)) :
    FSNode → String → ScanState → ScanState
  | .file name, path, st =>
    if IsHidden name then st
    else
      match detectFileType name with
      | none => st
      | some _ =>
        match (if enableCache then cacheLookup path else none) with
        | some deps => ⟨st.dependencies ++ deps, st.errors⟩
        | none =>
          match extract path with
          | .ok deps => ⟨st.dependencies ++ deps, st.errors⟩
          | .error e => ⟨st.dependencies, st.errors ++ [scanErrMsg path e]⟩
  | .dir name children, path, st =>
    if IsHidden name then st
    else scanVisitList enableCache cacheLookup extract children path st

/-- Walk a directory's children in order. -/
def scanVisitList (enableCache : Bool) (cacheLookup : String → Option (List Dependency))
    (extract : String → Except String (List Dependency)) :
    List FSNode → String → ScanState → ScanState
  | [], _, st => st
  | c :: rest, dirPath, st =>
    scanVisitList enableCache cacheLookup extract rest dirPath
      (scanVisit enableCache cacheLookup extract c (dirPath ++ "/" ++ c.name) st)

end

/-- `Scanner.Scan`: walk the tree rooted at the target directory and
return the aggregate.  In the source the only error returns are walk
I/O failures (absent from the pure tree model) — every extractor
failure is converted to an `errors` entry inside the callback, and the
error-group wait always receives `nil`. -/
def Scanner.scan (enableCache : Bool) (cacheLookup : String → Option (List Dependency))
    (extract : String → Except String (List Dependency))
    (root : FSNode) (rootPath : String) : Except String ScanState :=
  .ok (scanVisit enableCache cacheLookup extract root rootPath ⟨[], []⟩)

mutual

/-- The paths of the non-hidden files, below no hidden directory, for
which `detectFileType` selects an extractor: exactly the files whose
extraction outcome the scan consumes. -/
def matchedFiles : FSNode → String → List String
  | .file name, path =>
    if IsHidden name then []
    else if (detectFileType name).isSome then [path] else []
  | .dir name children, path =>
    if IsHidden name then [] else matchedFilesList children path

def matchedFilesList : List FSNode → String → List String
  | [], _ => []
  | c :: rest, dirPath =>
    matchedFiles c (dirPath ++ "/" ++ c.name) ++ matchedFilesList rest dirPath

end

/-- The per-file contribution to the aggregate record list. -/
def fileDeps (enableCache : Bool) (cacheLookup : String → Option (List Dependency))
    (extract : String → Except String (List Dependency)) (path : String) :
    List Dependency :=
  match (if enableCache then cacheLookup path else none) with
  | some deps => deps
  | none =>
    match extract path with
    | .ok deps => deps
    | .error _ => []

/-- The per-file contribution to the error list. -/
def fileErr (enableCache : Bool) (cacheLookup : String → Option (List Dependency))
    (extract : String → Except String (List Dependency)) (path : String) :
    List String :=
  match (if enableCache then cacheLookup path else none) with
  | some _ => []
  | none =>
    match extract path with
    | .ok _ => []
    | .error e => [scanErrMsg path e]

/-! ## Version normalization (`internal/analyzer`, `normalizeVersion`) -/

/-- `strings.Split(s, sep)` for a one-character separator: every
occurrence splits, empty segments are kept, and the empty string yields
one empty segment. -/
def splitOnChar (sep : Char) : List Char → List (List Char)
  | [] => [[]]
  | c :: t =>
    if c = sep then [] :: splitOnChar sep t
    else
      match splitOnChar sep t with
      | [] => [[c]]
      | seg :: rest => (c :: seg) :: rest

/-- `strings.Join` with a one-character separator. -/
def joinWithChar (sep : Char) : List (List Char) → List Char
  | [] => []
  | [x] => x
  | x :: xs => x ++ sep :: joinWithChar sep xs

/-- The prefix of `s` before the first occurrence of `"..."`
(`strings.Split(s, "...")[0]`). -/
def takeBeforeDots : List Char → List Char
  | [] => []
  | c :: t =>
    if ("...".data).isPrefixOf (c :: t) then [] else c :: takeBeforeDots t

/-- `strings.Contains(s, "...")`. -/
def containsDots : List Char → Bool
  | [] => false
  | c :: t => ("...".data).isPrefixOf (c :: t) || containsDots t

/-- The `for len(parts) < 3` padding loop: append `"0"` segments until
there are at least three (at most three iterations can ever run, since
`strings.Split` returns at least one segment). -/
def padTo3 (parts : List (List Char)) : List (List Char) :=
  let p1 := if parts.length < 3 then parts ++ [['0']] else parts
  let p2 := if p1.length < 3 then p1 ++ [['0']] else p1
  if p2.length < 3 then p2 ++ [['0']] else p2

/-- `normalizeVersion` on characters: strip one leading `v`; map
`branch=…`/`commit=…` to `0.0.0`; strip a leading `>=`; truncate at
`...`; split on `.` and pad to at least three segments. -/
def normalizeVersionL (version : List Char) : List Char :=
  let v1 := if ['v'].isPrefixOf version then version.drop 1 else version
  if ("branch=".data).isPrefixOf v1 ∨ ("commit=".data).isPrefixOf v1 then
    "0.0.0".data
  else
    let v2 := if ['>', '='].isPrefixOf v1 then v1.drop 2 else v1
    let v3 := if containsDots v2 then takeBeforeDots v2 else v2
    joinWithChar '.' (padTo3 (splitOnChar '.' v3))

/-- `normalizeVersion` (`internal/analyzer`). -/
def normalizeVersion (version : String) : String :=
  ⟨normalizeVersionL version.data⟩

/-! ## Semantic versions (`github.com/Masterminds/semver/v3`)

The analyzer and the resolver treat the semver library as a collaborator:
they call `NewVersion`, `LessThan`, `Equal`, `String`, and
`Constraints.Check`.  The embedding mirrors `NewVersion`'s accepted
grammar (`v?NUM(.NUM(.NUM)?)?(-PRE)?(+META)?`, numeric segments only,
missing minor/patch default to 0) and orders parsed versions by semver
precedence (numeric triple, then prerelease segments: absent > present,
numeric segments numerically and before alphanumeric ones, metadata
ignored). -/

/-- A parsed semantic version: numeric triple, prerelease segments
(dot-separated; `[]` means a release), and build metadata (ignored by
comparisons). -/
structure SemVer where
  major : Nat
  minor : Nat
  patch : Nat
  pre : List (List Char)
  meta : List Char
  deriving DecidableEq

/-- The zero version, used as the default for head/last of lists the
code guarantees are non-empty. -/
def semverDefault : SemVer := ⟨0, 0, 0, [], []⟩

/-- A character allowed in prerelease and metadata segments
(`[0-9A-Za-z-]`). -/
def isPreChar (c : Char) : Bool :=
  c.isDigit || c.isAlpha || c = '-'

/-- Decimal value of a digit string. -/
def natOfDigits (s : List Char) : Nat :=
  s.foldl (fun n c => n * 10 + (c.toNat - 48)) 0

/-- `semver.NewVersion`: optional `v`, one to three dotted numeric
segments, optional `-prerelease` (split at the first `-` after the
numeric core) and optional `+metadata`; prerelease and metadata are
non-empty dot-separated runs of `[0-9A-Za-z-]`. -/
def parseSemver (s : String) : Option SemVer :=
  let l := if ['v'].isPrefixOf s.data then s.data.drop 1 else s.data
  let core1 := l.takeWhile (· ≠ '+')
  let hasMeta := core1.length < l.length
  let meta := l.drop (core1.length + 1)
  let core := core1.takeWhile (· ≠ '-')
  let hasPre := core.length < core1.length
  let preStr := core1.drop (core.length + 1)
  let nums := splitOnChar '.' core
  let preSegs := splitOnChar '.' preStr
  if nums.length ≤ 3 ∧ nums.all (fun seg => seg ≠ [] ∧ seg.all Char.isDigit) ∧
      (¬ hasPre ∨ preSegs.all (fun seg => seg ≠ [] ∧ seg.all isPreChar)) ∧
      (¬ hasMeta ∨ (splitOnChar '.' meta).all (fun seg => seg ≠ [] ∧ seg.all isPreChar)) then
    some ⟨natOfDigits (nums.headD []), natOfDigits (nums.getD 1 []),
      natOfDigits (nums.getD 2 []), if hasPre then preSegs else [],
      if hasMeta then meta else []⟩
  else none

/-- Sort key of a prerelease segment: numeric segments order before and
among themselves numerically; alphanumeric ones lexicographically by
character code (every allowed character code exceeds the `0`/`1` tags,
so concatenated segment keys compare exactly as semver prescribes). -/
def encodePreSeg (seg : List Char) : List Nat :=
  if seg.all Char.isDigit then [0, natOfDigits seg] else 1 :: seg.map Char.toNat

/-- Sort key of a version under lexicographic `List Nat` order: the
numeric triple, then `1` for a release (greater than any prerelease tag
`0`) or `0` followed by the prerelease segment keys.  `LessThan`,
`Equal` and sorting all compare through this key; metadata is
excluded. -/
def SemVer.key (v : SemVer) : List Nat :=
  v.major :: v.minor :: v.patch ::
    (if v.pre.isEmpty then [1] else 0 :: (v.pre.map encodePreSeg).flatten)

/-- `Version.LessThan` / ascending sort order as a ≤ relation. -/
def semverLE (a b : SemVer) : Prop := a.key ≤ b.key

instance : DecidableRel semverLE := fun a b =>
  inferInstanceAs (Decidable (a.key ≤ b.key))

instance : IsTotal SemVer semverLE := ⟨fun a b => le_total a.key b.key⟩

instance : IsTrans SemVer semverLE := ⟨fun _ _ _ h1 h2 => le_trans h1 h2⟩

/-- `Version.String()`: the canonical `M.m.p[-pre][+meta]` rendering of
the parsed fields (not the original input text). -/
def SemVer.render (v : SemVer) : String :=
  ⟨Nat.toDigits 10 v.major ++ '.' :: Nat.toDigits 10 v.minor ++
    '.' :: Nat.toDigits 10 v.patch ++
    (if v.pre.isEmpty then [] else '-' :: joinWithChar '.' v.pre) ++
    (if v.meta.isEmpty then [] else '+' :: v.meta)⟩

/-! ## Dependency analyzer (`internal/analyzer`, `DependencyAnalyzer`)

`buildDependencyGraph` inserts one node per top-level record name and
appends an edge per child; `detectVersionConflicts` groups version
strings per name with their requirers; `detectCycles`,
`findDependencyPath` and `calculateDependencyDepth` are depth-first
searches over the edge map.  The recursive searches take explicit fuel
(structural recursion the kernel can evaluate); the fuel used is far
larger than the search's real bound — each non-trivial call permanently
marks an unvisited node — so it never runs out. -/

/-- The `edges[node]` read (missing key → empty slice). -/
def edgesOf (edges : List (String × List String)) (n : String) : List String :=
  (lookupA edges n).getD []

/-- The node-name side of `buildDependencyGraph`: one node per unique
top-level record name, in insertion order. -/
def buildNodes (deps : List Dependency) : List String :=
  deps.foldl (fun ns dep => if ns.contains dep.name then ns else ns ++ [dep.name]) []

/-- The edge side of `buildDependencyGraph`: for every record, append
one edge per child record under the record's name. -/
def buildEdges (deps : List Dependency) : List (String × List String) :=
  deps.foldl
    (fun es dep =>
      dep.dependencies.foldl
        (fun es2 child =>
          match lookupA es2 dep.name with
          | none => es2 ++ [(dep.name, [child.name])]
          | some l => upsertA es2 dep.name (l ++ [child.name]))
        es)
    []

/-- A generous fuel bound for the analyzer's depth-first searches. -/
def dfsFuel (nodes : List String) (edges : List (String × List String)) : Nat :=
  4 * (nodes.length + (edges.map fun pr => pr.2.length).sum + 2)

/-- State of `detectCycles`: black nodes, grey nodes (the `path` flag
map), and the cycles found so far. -/
structure CycSt where
  visited : List String
  pathFlags : List String
  cycles : List (List String)

/-- Index of the first occurrence (the `for i, n := range currentPath`
search in `detectCycles`). -/
def firstIdx (x : String) : List String → Option Nat
  | [] => none
  | y :: t => if y = x then some 0 else (firstIdx x t).map (· + 1)

mutual

/-- The recursive closure of `detectCycles`: on a grey node, emit the
slice of the current path from that node plus the revisit and abort with
`true`; on a black node return `false`; otherwise mark grey and black
and descend.  An abort skips the grey-flag reset — exactly as in the
source, where `path[node] = false` is unreachable after an inner
`return true`. -/
def cycDfs (edges : List (String × List String)) :
    Nat → String → List String → CycSt → Bool × CycSt
  | 0, _, _, st => (false, st)
  | fuel + 1, node, currentPath, st =>
    if st.pathFlags.contains node then
      match firstIdx node currentPath with
      | some i => (true, { st with cycles := st.cycles ++ [currentPath.drop i ++ [node]] })
      | none => (true, st)
    else if st.visited.contains node then (false, st)
    else
      cycChildren edges fuel node (edgesOf edges node) (currentPath ++ [node])
        { st with visited := st.visited ++ [node], pathFlags := st.pathFlags ++ [node] }

/-- The child loop of `detectCycles`' closure; when every child returns
`false` the owner's grey flag is reset. -/
def cycChildren (edges : List (String × List String)) :
    Nat → String → List String → List String → CycSt → Bool × CycSt
  | 0, _, _, _, st => (false, st)
  | _ + 1, owner, [], _, st => (false, { st with pathFlags := st.pathFlags.erase owner })
  | fuel + 1, owner, c :: cs, currentPath, st =>
    match cycDfs edges fuel c currentPath st with
    | (true, st') => (true, st')
    | (false, st') => cycChildren edges fuel owner cs currentPath st'

end

/-- `detectCycles`: run the DFS from every node not yet black, in node
insertion order (Go iterates its node map in unspecified order; the
theorems below do not depend on the order chosen). -/
def detectCycles (nodes : List String) (edges : List (String × List String)) :
    List (List String) :=
  (nodes.foldl
    (fun (st : CycSt) node =>
      if st.visited.contains node then st
      else (cycDfs edges (dfsFuel nodes edges) node [] st).2)
    ⟨[], [], []⟩).cycles

/-- State of `findDependencyPath`: visited set and current path. -/
structure PathSt where
  visited : List String
  path : List String

mutual

/-- The recursive closure of `findDependencyPath`: stop with `true` at
the target, skip visited nodes, otherwise push, descend, and pop on
failure. -/
def fdpDfs (edges : List (String × List String)) (target : String) :
    Nat → String → PathSt → Bool × PathSt
  | 0, _, st => (false, st)
  | fuel + 1, node, st =>
    if node = target then (true, { st with path := st.path ++ [node] })
    else if st.visited.contains node then (false, st)
    else
      fdpChildren edges target fuel (edgesOf edges node)
        { visited := st.visited ++ [node], path := st.path ++ [node] }

/-- The child loop of `findDependencyPath`'s closure; when every child
fails the owner is popped from the path. -/
def fdpChildren (edges : List (String × List String)) (target : String) :
    Nat → List String → PathSt → Bool × PathSt
  | 0, _, st => (false, st)
  | _ + 1, [], st => (false, { st with path := st.path.dropLast })
  | fuel + 1, c :: cs, st =>
    match fdpDfs edges target fuel c st with
    | (true, st') => (true, st')
    | (false, st') => fdpChildren edges target fuel cs st'

end

/-- The root loop of `findDependencyPath`: try every unvisited node in
insertion order; return the accumulated path on the first hit, `nil`
(empty) when the target is never reached. -/
def fdpRoots (edges : List (String × List String)) (target : String)
    (fuel : Nat) : List String → PathSt → List String
  | [], _ => []
  | n :: rest, st =>
    if st.visited.contains n then fdpRoots edges target fuel rest st
    else
      match fdpDfs edges target fuel n st with
      | (true, st') => st'.path
      | (false, st') => fdpRoots edges target fuel rest st'

/-- `findDependencyPath`. -/
def findDependencyPath (nodes : List String) (edges : List (String × List String))
    (target : String) : List String :=
  fdpRoots edges target (dfsFuel nodes edges) nodes ⟨[], []⟩

mutual

/-- The recursive closure of `calculateDependencyDepth`. -/
def depthDfs (edges : List (String × List String)) :
    Nat → String → Nat → List String × Nat → List String × Nat
  | 0, _, _, st => st
  | fuel + 1, node, depth, (visited, maxD) =>
    if visited.contains node then (visited, maxD)
    else
      depthChildren edges fuel (edgesOf edges node) (depth + 1)
        (visited ++ [node], max maxD depth)

/-- The child loop of `calculateDependencyDepth`'s closure. -/
def depthChildren (edges : List (String × List String)) :
    Nat → List String → Nat → List String × Nat → List String × Nat
  | 0, _, _, st => st
  | _ + 1, [], _, st => st
  | fuel + 1, c :: cs, depth, st =>
    depthChildren edges fuel cs depth (depthDfs edges fuel c depth st)

end

/-- `calculateDependencyDepth`: DFS from every unvisited node at depth
0, recording the maximum depth reached. -/
def calculateDependencyDepth (nodes : List String)
    (edges : List (String × List String)) : Nat :=
  (nodes.foldl
    (fun st n => if st.1.contains n then st else depthDfs edges (dfsFuel nodes edges) n 0 st)
    ([], 0)).2

/-- `versionMap`: package name → version string → requirers, insertion
order preserved (Go map iteration order is unspecified; no theorem
depends on the order chosen). -/
abbrev VersionMap := List (String × List (String × List String))

/-- Append a requirer under `versionMap[name][version]`. -/
def vmAdd (m : VersionMap) (name version requirer : String) : VersionMap :=
  match lookupA m name with
  | none => m ++ [(name, [(version, [requirer])])]
  | some inner =>
    match lookupA inner version with
    | none => upsertA m name (inner ++ [(version, [requirer])])
    | some rs => upsertA m name (upsertA inner version (rs ++ [requirer]))

/-- The version-collection step of `detectVersionConflicts` for one
record: the record itself is required by `"root"`, each child by the
record's name. -/
def addDepVersions (m : VersionMap) (dep : Dependency) : VersionMap :=
  dep.dependencies.foldl
    (fun m2 child => vmAdd m2 child.name child.version dep.name)
    (vmAdd m dep.name dep.version "root")

/-- The version-collection loop of `detectVersionConflicts`. -/
def collectVersionMap (deps : List Dependency) : VersionMap :=
  deps.foldl addDepVersions []

/-- A `VersionConflict` record. -/
structure VersionConflict where
  package : String
  required : String
  current : String
  source : String
  path : List String
  deriving DecidableEq

/-- `strings.Join(sources, ", ")`. -/
def joinComma : List String → String
  | [] => ""
  | [x] => x
  | x :: xs => x ++ ", " ++ joinComma xs

/-- The per-package body of `detectVersionConflicts`: with more than one
recorded version, parse each normalized version, sort the parses
ascending, and when the least and greatest parses differ emit one
conflict per original version carrying the newest parse's rendering, the
joined requirers and the dependency path. -/
def packageConflicts (nodes : List String) (edges : List (String × List String))
    (pkg : String) (versions : List (String × List String)) : List VersionConflict :=
  if 1 < versions.length then
    if 1 < (versions.filterMap fun pr => parseSemver (normalizeVersion pr.1)).length then
      if (((versions.filterMap fun pr =>
              parseSemver (normalizeVersion pr.1)).insertionSort
            semverLE).head?.getD semverDefault).key ≠
          (((versions.filterMap fun pr =>
              parseSemver (normalizeVersion pr.1)).insertionSort
            semverLE).getLast?.getD semverDefault).key then
        versions.map fun pr =>
          ⟨pkg, pr.1,
            ((((versions.filterMap fun pr =>
                parseSemver (normalizeVersion pr.1)).insertionSort
              semverLE).getLast?.getD semverDefault)).render,
            joinComma pr.2, findDependencyPath nodes edges pkg⟩
      else []
    else []
  else []

/-- `detectVersionConflicts`. -/
def detectVersionConflicts (deps : List Dependency) : List VersionConflict :=
  ((collectVersionMap deps).map fun pr =>
    packageConflicts (buildNodes deps) (buildEdges deps) pr.1 pr.2).flatten

/-- `countDirectDependencies`: records whose scope is not `"indirect"`. -/
def countDirectDependencies (deps : List Dependency) : Nat :=
  (deps.filter fun d => d.scope ≠ "indirect").length

/-- `AnalysisResult` (the fields the claims are about; `Stats` is a
per-type/scope/source tally derived from the same list). -/
structure AnalysisResult where
  totalDependencies : Nat
  directDependencies : Nat
  indirectDependencies : Nat
  cycles : List (List String)
  conflicts : List VersionConflict
  maxDepth : Nat

/-- `DependencyAnalyzer.Analyze`: build the graph, detect cycles and
conflicts, compute the depth. -/
def DependencyAnalyzer.analyze (deps : List Dependency) : AnalysisResult :=
  { totalDependencies := deps.length
    directDependencies := countDirectDependencies deps
    indirectDependencies := deps.length - countDirectDependencies deps
    cycles := detectCycles (buildNodes deps) (buildEdges deps)
    conflicts := detectVersionConflicts deps
    maxDepth := calculateDependencyDepth (buildNodes deps) (buildEdges deps) }

/-- Every consecutive pair of the list is an edge of the map. -/
def chainEdges (edges : List (String × List String)) : List String → Bool
  | [] => true
  | [_] => true
  | a :: b :: t => (edgesOf edges a).contains b && chainEdges edges (b :: t)

/-- A closed directed walk in the edge map that visits no node twice
except for its matching endpoints: the "simple cycle" the claims
quantify over. -/
def isSimpleCycle (edges : List (String × List String)) (l : List String) : Prop :=
  2 ≤ l.length ∧ l.head? = l.getLast? ∧ l.dropLast.Nodup ∧
  chainEdges edges l = true

/-! ## Resolver (`internal/analyzer`, `Resolver`)

`Resolve` builds a `DependencyGraph`, fails on cycles in strict mode,
topologically sorts, and resolves each dependency by filtering a fixed
candidate list through the dependency's parsed version constraints and
picking one by strategy.  The semver `Constraints` collaborator is
modelled by its interface — a boolean `check` over parsed versions —
with `NewConstraint` covering the comparison-operator subset the claims
exercise (`=`, `!=`, `>`, `<`, `>=`, `<=`, and a bare version meaning
equality); as in the library, a constraint without prerelease does not
admit prerelease candidates. -/

/-- The model of `*semver.Constraints`: what `Check` answers. -/
structure Constraints where
  check : SemVer → Bool

/-- One comparison constraint `OP version`. -/
def mkComparison (op : String) (w : SemVer) : Constraints :=
  ⟨fun v =>
    if v.pre ≠ [] ∧ w.pre = [] then false
    else
      match op with
      | ">" => decide (w.key < v.key)
      | "<" => decide (v.key < w.key)
      | ">=" => decide (w.key ≤ v.key)
      | "<=" => decide (v.key ≤ w.key)
      | "!=" => decide (v.key ≠ w.key)
      | _ => decide (v.key = w.key)⟩

/-- `semver.NewConstraint` on one comparison: optional operator prefix,
optional spaces, then a (possibly partial) version. -/
def semverNewConstraint (s : String) : Option Constraints :=
  let t := goTrimSpace s.data
  let op :=
    if [ '>', '=' ].isPrefixOf t then ">="
    else if [ '<', '=' ].isPrefixOf t then "<="
    else if [ '!', '=' ].isPrefixOf t then "!="
    else if [ '>' ].isPrefixOf t then ">"
    else if [ '<' ].isPrefixOf t then "<"
    else if [ '=' ].isPrefixOf t then "="
    else ""
  let rest := goTrimSpace (t.drop op.length)
  (parseSemver (String.mk rest)).map (mkComparison op)

/-- `ResolutionStrategy`. -/
inductive ResolutionStrategy where
  | newest | oldest | minimal
  deriving DecidableEq

/-- `ResolveOptions`. -/
structure ResolveOptions where
  strategy : ResolutionStrategy
  strict : Bool

/-- `ResolveResult`. -/
structure ResolveResult where
  dependencies : List Dependency
  unresolved : List String
  errors : List String

/-- `parseVersionConstraints`: empty version means no constraints;
otherwise the comma-separated parts must all parse. -/
def parseVersionConstraints (dep : Dependency) : Option (List Constraints) :=
  if dep.version = "" then some []
  else
    (splitOnChar ',' dep.version.data).mapM fun part =>
      semverNewConstraint (String.mk part)

/-- `getAvailableVersions`: the fixed local candidate list, parsed and
sorted ascending. -/
def getAvailableVersions : List SemVer :=
  (["1.0.0", "1.1.0", "1.2.0", "2.0.0", "2.1.0", "2.2.0"].filterMap parseSemver).insertionSort
    semverLE

/-- `checkConstraints`: a version is admissible iff every constraint
admits it (no constraints admit everything). -/
def checkConstraints (v : SemVer) (cs : List Constraints) : Bool :=
  cs.all fun c => c.check v

/-- `findMinimalVersion`: the strict-`LessThan` minimum scan. -/
def findMinimalVersion : List SemVer → SemVer
  | [] => semverDefault
  | v :: rest =>
    rest.foldl (fun minimal v' => if v'.key < minimal.key then v' else minimal) v

/-- `Resolver.selectVersion`: filter the candidates by the constraints,
then pick the last (`newest`), the first (`oldest`), or the
`findMinimalVersion` scan's result (`minimal`). -/
def Resolver.selectVersion (versions : List SemVer) (cs : List Constraints)
    (strategy : ResolutionStrategy) : Except String SemVer :=
  if versions = [] then .error "no available versions"
  else
    if (versions.filter fun v => checkConstraints v cs) = [] then
      .error "no compatible versions found"
    else
      match strategy with
      | .newest =>
        .ok ((versions.filter fun v => checkConstraints v cs).getLast?.getD semverDefault)
      | .oldest =>
        .ok ((versions.filter fun v => checkConstraints v cs).head?.getD semverDefault)
      | .minimal =>
        .ok (findMinimalVersion (versions.filter fun v => checkConstraints v cs))

/-- Replace a record's version (`dep.Version = version.String()`). -/
def Dependency.withVersion : Dependency → String → Dependency
  | .mk _ _ t sc so p r f l ds, n => .mk n n t sc so p r f l ds

/-- `resolveDependency`: an already-resolved name short-circuits;
otherwise parse the constraints, fetch the candidates and select. -/
def resolveDependency (dep : Dependency) (resolved : List (String × Dependency))
    (strategy : ResolutionStrategy) : Except String Dependency :=
  match lookupA resolved dep.name with
  | some rd => .ok rd
  | none =>
    match parseVersionConstraints dep with
    | none => .error "invalid version constraints"
    | some cs =>
      match Resolver.selectVersion getAvailableVersions cs strategy with
      | .error e => .error ("failed to select version: " ++ e)
      | .ok v => .ok ⟨dep.name, v.render, dep.type, dep.scope, dep.source,
          dep.parent, dep.rule, dep.filePath, dep.line, dep.dependencies⟩

/-- Modelled from the spec: the resolver's `DependencyGraph` type and its
methods (`NewDependencyGraph`, `AddNode`, `AddEdge`, `GetEdges`,
`GetNode`, `GetAllNodes`, `FindCycles`) are declared in a repository
file missing from `src/` — only their callers appear (`Resolver.Resolve`,
`topologicalSort`, the visualizer).  Per spec §4.A the graph keeps one
node per unique name in stable insertion order, appends edges, and
`find_cycles` is a DFS with grey/black coloring — the same algorithm as
the analyzer's `detectCycles`, which models it here. -/
structure DependencyGraph where
  nodes : List (String × Dependency)
  edges : List (String × List String)

/-- Modelled from the spec: `NewDependencyGraph()`. -/
def NewDependencyGraph : DependencyGraph := ⟨[], []⟩

/-- Modelled from the spec: `AddNode` inserts one node per unique name. -/
def DependencyGraph.addNode (g : DependencyGraph) (dep : Dependency) :
    DependencyGraph :=
  if (lookupA g.nodes dep.name).isSome then g
  else { g with nodes := g.nodes ++ [(dep.name, dep)] }

/-- Modelled from the spec: `AddEdge` appends a directed edge. -/
def DependencyGraph.addEdge (g : DependencyGraph) (src dst : String) :
    DependencyGraph :=
  match lookupA g.edges src with
  | none => { g with edges := g.edges ++ [(src, [dst])] }
  | some l => { g with edges := upsertA g.edges src (l ++ [dst]) }

/-- Modelled from the spec: `GetEdges`. -/
def DependencyGraph.getEdges (g : DependencyGraph) (n : String) : List String :=
  edgesOf g.edges n

/-- Modelled from the spec: `GetNode`. -/
def DependencyGraph.getNode (g : DependencyGraph) (n : String) : Option Dependency :=
  lookupA g.nodes n

/-- Modelled from the spec: `GetAllNodes` in insertion order. -/
def DependencyGraph.getAllNodes (g : DependencyGraph) : List Dependency :=
  g.nodes.map Prod.snd

/-- Modelled from the spec: `FindCycles` — grey/black DFS over the
graph, as in the analyzer. -/
def DependencyGraph.findCycles (g : DependencyGraph) : List (List String) :=
  detectCycles (g.nodes.map Prod.fst) g.edges

/-- State of `topologicalSort`'s `visit`. -/
structure TopoSt where
  visited : List String
  temp : List String
  sorted : List Dependency

mutual

/-- `topologicalSort`'s recursive `visit`: a grey (`temp`) node is a
cycle error regardless of options; visited nodes are skipped; otherwise
mark grey, visit children, then mark black and emit the node in
post-order.  Fuel as in the analyzer's searches. -/
def topoVisit (g : DependencyGraph) :
    Nat → String → TopoSt → Except String TopoSt
  | 0, _, _ => .error "fuel exhausted"
  | fuel + 1, name, st =>
    if st.temp.contains name then .error "circular dependency detected"
    else if st.visited.contains name then .ok st
    else
      match topoChildren g fuel (g.getEdges name) { st with temp := st.temp ++ [name] } with
      | .error e => .error e
      | .ok st' =>
        .ok { visited := st'.visited ++ [name], temp := st'.temp.erase name,
              sorted := st'.sorted ++
                (match g.getNode name with | some nd => [nd] | none => []) }

/-- The child loop of `visit`. -/
def topoChildren (g : DependencyGraph) :
    Nat → List String → TopoSt → Except String TopoSt
  | 0, _, _ => .error "fuel exhausted"
  | _ + 1, [], st => .ok st
  | fuel + 1, c :: cs, st =>
    match topoVisit g fuel c st with
    | .error e => .error e
    | .ok st' => topoChildren g fuel cs st'

end

/-- The root loop of `topologicalSort` over `GetAllNodes`. -/
def topoRoots (g : DependencyGraph) (fuel : Nat) :
    List Dependency → TopoSt → Except String TopoSt
  | [], st => .ok st
  | nd :: rest, st =>
    if st.visited.contains nd.name then topoRoots g fuel rest st
    else
      match topoVisit g fuel nd.name st with
      | .error e => .error e
      | .ok st' => topoRoots g fuel rest st'

/-- `Resolver.topologicalSort`. -/
def topologicalSort (g : DependencyGraph) : Except String (List Dependency) :=
  match topoRoots g (dfsFuel (g.nodes.map Prod.fst) g.edges) (g.getAllNodes)
      ⟨[], [], []⟩ with
  | .error e => .error e
  | .ok st => .ok st.sorted

/-- The per-dependency resolution loop of `Resolve`: strict-mode errors
collect in `errors`, otherwise in `unresolved`; successes are recorded
and emitted. -/
def resolveLoop (opts : ResolveOptions) :
    List Dependency → List (String × Dependency) → ResolveResult → ResolveResult
  | [], _, res => res
  | dep :: rest, resolved, res =>
    match resolveDependency dep resolved opts.strategy with
    | .error e =>
      if opts.strict then
        resolveLoop opts rest resolved { res with errors := res.errors ++ [e] }
      else
        resolveLoop opts rest resolved
          { res with unresolved := res.unresolved ++ [dep.name] }
    | .ok rd =>
      resolveLoop opts rest (upsertA resolved dep.name rd)
        { res with dependencies := res.dependencies ++ [rd] }

/-- `Resolver.Resolve`: build the graph, fail on cycles when strict,
topologically sort (any sort failure aborts), then resolve in order.
The source formats the offending cycles and the underlying sort error
into the message with `%v`; the embedding keeps the fixed message
prefixes. -/
def Resolver.resolve (deps : List Dependency) (opts : ResolveOptions) :
    Except String ResolveResult :=
  let graph := deps.foldl
    (fun g dep =>
      dep.dependencies.foldl (fun g2 child => g2.addEdge dep.name child.name)
        (g.addNode dep))
    NewDependencyGraph
  if graph.findCycles ≠ [] ∧ opts.strict then
    .error "circular dependencies detected"
  else
    match topologicalSort graph with
    | .error _ => .error "failed to sort dependencies"
    | .ok sorted => .ok (resolveLoop opts sorted [] ⟨[], [], []⟩)

/-- The E5/C6 resolver example: a two-cycle `A ↔ B`. -/
def cycResolveDeps : List Dependency :=
  [Dependency.simple "A" "" [Dependency.simple "B" ""],
   Dependency.simple "B" "" [Dependency.simple "A" ""]]

/-- The E5 candidate list `{1.0.0, 1.1.0, 2.0.0}`, ascending. -/
def e5Versions : List SemVer :=
  [⟨1, 0, 0, [], []⟩, ⟨1, 1, 0, [], []⟩, ⟨2, 0, 0, [], []⟩]

/-- A package name occurring with a given version in a dependency list:
either a top-level record or a child of one — exactly the occurrences
`detectVersionConflicts` collects into its version map. -/
def depOccurs (deps : List Dependency) (name version : String) : Prop :=
  (∃ d ∈ deps, d.name = name ∧ d.version = version) ∨
  (∃ d ∈ deps, ∃ c ∈ d.dependencies, c.name = name ∧ c.version = version)

/-- `(name, version)` is recorded in a version map. -/
def hasVer (m : VersionMap) (n v : String) : Prop :=
  ∃ inner, lookupA m n = some inner ∧ ∃ rs, lookupA inner v = some rs

/-- The E6 scenario: records with edges `A→B`, `B→C`, `C→A`. -/
def triDeps : List Dependency :=
  [Dependency.simple "A" "" [Dependency.simple "B" ""],
   Dependency.simple "B" "" [Dependency.simple "C" ""],
   Dependency.simple "C" "" [Dependency.simple "A" ""]]

/-- Two simple cycles sharing node `A`: `A→B→A` and `A→C→A`. -/
def twoCycDeps : List Dependency :=
  [Dependency.simple "A" "" [Dependency.simple "B" "", Dependency.simple "C" ""],
   Dependency.simple "B" "" [Dependency.simple "A" ""],
   Dependency.simple "C" "" [Dependency.simple "A" ""]]

/-- A conflict example: `lib` is required as `1.2` by `app` and appears
as `v2.0.0` itself. -/
def confDeps : List Dependency :=
  [Dependency.simple "app" "1.0.0" [Dependency.simple "lib" "1.2"],
   Dependency.simple "lib" "v2.0.0"]

/-- Example project tree for the scan theorems: a CMake manifest (whose
extraction will fail) next to a Makefile (whose extraction succeeds). -/
def exTree : FSNode :=
  .dir "proj" [.file "CMakeLists.txt", .file "Makefile"]

/-- Extraction oracle for `exTree`: the CMake file fails to parse, the
Makefile yields one record. -/
def exExtract (p : String) : Except String (List Dependency) :=
  if p = "/proj/CMakeLists.txt" then .error "boom"
  else if p = "/proj/Makefile" then .ok [Dependency.simple "make-lib" ""]
  else .ok []

/-- A tree whose only manifest is a `.gitmodules` file. -/
def gitmodulesTree : FSNode :=
  .dir "repo" [.file ".gitmodules"]

/-- The three lines of the spec's Ninja scenario E1. -/
def ninjaE1Lines : List String :=
  ["srcdir = src", "objdir = build/obj",
   "build $objdir/main.o: cxx $srcdir/main.cpp"]

/-! ## Theorems -/

/-! ### Cache theorems (claims C1 and C10) -/

theorem lookupA_upsertA_self {α : Type} (l : List (String × α)) (k : String) (v : α) :
    lookupA (upsertA l k v) k = some v := by
  induction l with
  | nil => simp [upsertA, lookupA]
  | cons hd tl ih =>
    by_cases h : hd.1 = k
    · simp [upsertA, h, lookupA]
    · simp [upsertA, h, lookupA, ih]

theorem lookupA_upsertA_isSome {α : Type} (l : List (String × α)) (k p : String)
    (v : α) (h : (lookupA l p).isSome) : (lookupA (upsertA l k v) p).isSome := by
  induction l with
  | nil => simp [lookupA] at h
  | cons hd tl ih =>
    obtain ⟨k', v'⟩ := hd
    by_cases hk : k' = k
    · subst hk
      by_cases hp : k' = p
      · subst hp; simp [upsertA, lookupA]
      · simp only [upsertA, if_pos rfl]
        simp only [lookupA, if_neg hp] at h ⊢
        exact h
    · by_cases hp : k' = p
      · subst hp; simp [upsertA, hk, lookupA]
      · simp only [upsertA, if_neg hk, lookupA, if_neg hp] at h ⊢
        exact ih h

/-- C1: `Set` followed by `Get` on an unchanged file within the seven-day
window is a hit returning the stored records; a changed content or an
elapsed window is a miss. -/
theorem cache_set_get_sound
    (c c' : Cache) (fs : FileSystem) (path content : String)
    (deps : List Dependency) (tset tget : Nat)
    (hread : fs path = some content)
    (hset : Cache.set c fs tset path deps = .ok c') :
    (tget - tset ≤ cacheTTL → (c'.get fs tget path).1 = some deps) ∧
    (∀ content', content' ≠ content →
      (c'.get (fun p => if p = path then some content' else fs p) tget path).1 = none) ∧
    (tget - tset > cacheTTL → (c'.get fs tget path).1 = none) := by
  have hentries : c'.entries = upsertA c.entries path ⟨sha256Hex content, tset, deps⟩ := by
    simp only [Cache.set, hashFile, hread, Option.map_some'] at hset
    cases hset
    rfl
  have hlook : lookupA c'.entries path = some ⟨sha256Hex content, tset, deps⟩ := by
    rw [hentries]; exact lookupA_upsertA_self _ _ _
  refine ⟨?_, ?_, ?_⟩
  · intro hfresh
    simp [Cache.get, hashFile, hread, hlook, Nat.not_lt.mpr hfresh]
  · intro content' hne
    simp only [Cache.get, hashFile, if_pos rfl, Option.map_some', hlook]
    have : sha256Hex content ≠ sha256Hex content' := by
      simpa [sha256Hex] using fun h => hne h.symm
    simp [this]
  · intro hstale
    simp [Cache.get, hashFile, hread, hlook, hstale]

theorem cache_set_get_sound_witness :
    exFS "/m/CMakeLists.txt" = some "find_package(Boost)" ∧
    Cache.set ⟨[], []⟩ exFS 0 "/m/CMakeLists.txt" exDeps = .ok exCacheAfter ∧
    (exCacheAfter.get exFS 3600 "/m/CMakeLists.txt").1 = some exDeps ∧
    (exCacheAfter.get
      (fun p => if p = "/m/CMakeLists.txt" then some "find_package(Boosu)" else exFS p)
      3600 "/m/CMakeLists.txt").1 = none ∧
    (exCacheAfter.get exFS (cacheTTL + 1) "/m/CMakeLists.txt").1 = none := by
  have h := cache_set_get_sound ⟨[], []⟩ exCacheAfter exFS "/m/CMakeLists.txt"
    "find_package(Boost)" exDeps 0 3600 rfl rfl
  have h' := cache_set_get_sound ⟨[], []⟩ exCacheAfter exFS "/m/CMakeLists.txt"
    "find_package(Boost)" exDeps 0 (cacheTTL + 1) rfl rfl
  exact ⟨rfl, rfl, h.1 (by decide), h.2.1 "find_package(Boosu)" (by decide),
    h'.2.2 (by decide)⟩

/-- C10: `Get` is read-only — whatever it returns (hit, hash-mismatch
miss, unreadable-file miss or stale-entry miss), the cache state (entry
map and persisted file) is unchanged — and `Set` never removes an entry:
every path present before a successful `Set` is still present after. -/
theorem cache_get_readonly
    (c : Cache) (fs : FileSystem) (now : Nat) (path : String) :
    (c.get fs now path).2 = c ∧
    (∀ deps c', c.set fs now path deps = .ok c' →
      ∀ p, (lookupA c.entries p).isSome → (lookupA c'.entries p).isSome) := by
  constructor
  · unfold Cache.get
    cases hashFile fs path with
    | none => rfl
    | some h =>
      cases lookupA c.entries path with
      | none => rfl
      | some entry =>
        by_cases h1 : entry.hash ≠ h
        · simp [h1]
        · by_cases h2 : now - entry.updateTime > cacheTTL <;> simp [h1, h2]
  · intro deps c' hset p hp
    unfold Cache.set at hset
    cases hfs : hashFile fs path with
    | none => rw [hfs] at hset; cases hset
    | some h =>
      rw [hfs] at hset
      cases hset
      exact lookupA_upsertA_isSome _ _ _ _ hp

theorem cache_get_readonly_witness :
    ((Cache.get ⟨[("/a", ⟨sha256Hex "x", 0, []⟩)], [("/a", ⟨sha256Hex "x", 0, []⟩)]⟩
        (fun p => if p = "/a" then some "y" else none) 5 "/a").2 =
      ⟨[("/a", ⟨sha256Hex "x", 0, []⟩)], [("/a", ⟨sha256Hex "x", 0, []⟩)]⟩) ∧
    (lookupA ([("/a", (⟨sha256Hex "x", 0, []⟩ : CacheEntry))]) "/a").isSome := by
  constructor
  · exact (cache_get_readonly ⟨[("/a", ⟨sha256Hex "x", 0, []⟩)],
      [("/a", ⟨sha256Hex "x", 0, []⟩)]⟩
      (fun p => if p = "/a" then some "y" else none) 5 "/a").1
  · decide

/-! ### Ninja extractor theorems (claim C9) -/

/-- C9, counterexample: on the E1 input the extracted record's `parent`
is the verbatim first output `$objdir/main.o` — `expandVariables` is
applied to inputs but not to outputs — so no record carries the
claimed parent `build/obj/main.o`. -/
theorem ninja_e1_parent_not_expanded :
    (ninjaExtract "build.ninja" ninjaE1Lines).map Dependency.parent =
      ["$objdir/main.o"] ∧
    ∀ d ∈ ninjaExtract "build.ninja" ninjaE1Lines, d.parent ≠ "build/obj/main.o" := by
  refine ⟨rfl, ?_⟩
  intro d hd
  simp only [ninjaExtract, ninjaE1Lines] at hd
  rw [show ninjaExtractLines "build.ninja" [] 1
      ["srcdir = src", "objdir = build/obj",
       "build $objdir/main.o: cxx $srcdir/main.cpp"] =
      [Dependency.mk "src/main.cpp" "" "ninja_input" "" "" "$objdir/main.o" "cxx"
        "build.ninja" 3 []] from rfl] at hd
  simp at hd
  subst hd
  decide

/-- C9, amended: extracting the E1 Ninja file yields exactly one record
`{name: "src/main.cpp", type: "ninja_input", rule: "cxx"}` whose `parent`
is the unexpanded first output `$objdir/main.o`; `$VAR`/`${VAR}`
references in inputs are expanded against the local variable table,
unknown variables pass through unchanged, and an empty table leaves any
value unchanged. -/
theorem ninja_e1_extract :
    ninjaExtract "build.ninja" ninjaE1Lines =
      [Dependency.mk "src/main.cpp" "" "ninja_input" "" "" "$objdir/main.o" "cxx"
        "build.ninja" 3 []] ∧
    String.mk (ninjaExpandVariables "$unknowndir/main.o".data
      [("srcdir", "src"), ("objdir", "build/obj")]) = "$unknowndir/main.o" ∧
    ∀ value : List Char, ninjaExpandVariables value [] = value := by
  refine ⟨rfl, by decide, fun value => rfl⟩

/-! ### Scan engine theorems (claims C7 and C8) -/

mutual

theorem scanVisit_eq (ec : Bool) (cl : String → Option (List Dependency))
    (ex : String → Except String (List Dependency)) :
    ∀ (n : FSNode) (p : String) (st : ScanState),
    scanVisit ec cl ex n p st =
      ⟨st.dependencies ++ ((matchedFiles n p).map (fileDeps ec cl ex)).join,
       st.errors ++ ((matchedFiles n p).map (fileErr ec cl ex)).join⟩ := by
  intro n p st
  match n with
  | .file name =>
    unfold scanVisit matchedFiles
    by_cases h : IsHidden name
    · simp [h]
    · simp only [h, Bool.false_eq_true, if_false]
      cases hdet : detectFileType name with
      | none => simp [hdet]
      | some k =>
        simp only [hdet, Option.isSome_some, if_true]
        unfold fileDeps fileErr
        cases hcl : (if ec then cl p else none) with
        | some deps => simp [hcl]
        | none =>
          cases hex : ex p with
          | ok deps => simp [hcl, hex]
          | error e => simp [hcl, hex]
  | .dir name children =>
    unfold scanVisit matchedFiles
    by_cases h : IsHidden name
    · simp [h]
    · simp only [h, Bool.false_eq_true, if_false]
      exact scanVisitList_eq ec cl ex children p st

theorem scanVisitList_eq (ec : Bool) (cl : String → Option (List Dependency))
    (ex : String → Except String (List Dependency)) :
    ∀ (ns : List FSNode) (p : String) (st : ScanState),
    scanVisitList ec cl ex ns p st =
      ⟨st.dependencies ++ ((matchedFilesList ns p).map (fileDeps ec cl ex)).join,
       st.errors ++ ((matchedFilesList ns p).map (fileErr ec cl ex)).join⟩ := by
  intro ns p st
  match ns with
  | [] => unfold scanVisitList matchedFilesList; simp
  | c :: rest =>
    unfold scanVisitList matchedFilesList
    rw [scanVisit_eq ec cl ex c (p ++ "/" ++ c.name) st,
      scanVisitList_eq ec cl ex rest p _]
    simp [List.append_assoc]

end

/-- C7: a per-file extractor failure never aborts the scan — `Scan`
still returns a result; the result's `errors` list carries the message
naming the failed file; and every record of every other successfully
extracted file is still aggregated. -/
theorem scan_extractor_error_local
    (ec : Bool) (cl : String → Option (List Dependency))
    (ex : String → Except String (List Dependency))
    (root : FSNode) (rootPath f e : String)
    (hf : f ∈ matchedFiles root rootPath)
    (hcache : (if ec then cl f else none) = none)
    (herr : ex f = .error e) :
    ∃ st, Scanner.scan ec cl ex root rootPath = .ok st ∧
      scanErrMsg f e ∈ st.errors ∧
      ∀ g ∈ matchedFiles root rootPath, ∀ ds,
        (if ec then cl g else none) = none → ex g = .ok ds →
        ∀ d ∈ ds, d ∈ st.dependencies := by
  refine ⟨scanVisit ec cl ex root rootPath ⟨[], []⟩, rfl, ?_, ?_⟩
  · rw [scanVisit_eq]
    simp only [List.nil_append]
    apply List.mem_join.mpr
    refine ⟨fileErr ec cl ex f, List.mem_map_of_mem _ hf, ?_⟩
    unfold fileErr
    rw [hcache, herr]
    simp
  · intro g hg ds hcl hok d hd
    rw [scanVisit_eq]
    simp only [List.nil_append]
    apply List.mem_join.mpr
    refine ⟨fileDeps ec cl ex g, List.mem_map_of_mem _ hg, ?_⟩
    unfold fileDeps
    rw [hcl, hok]
    exact hd

theorem scan_extractor_error_local_witness :
    "/proj/CMakeLists.txt" ∈ matchedFiles exTree "/proj" ∧
    ∃ st, Scanner.scan false (fun _ => none) exExtract exTree "/proj" = .ok st ∧
      scanErrMsg "/proj/CMakeLists.txt" "boom" ∈ st.errors ∧
      Dependency.simple "make-lib" "" ∈ st.dependencies := by
  have hmem : "/proj/CMakeLists.txt" ∈ matchedFiles exTree "/proj" := by
    rw [show matchedFiles exTree "/proj" = ["/proj/CMakeLists.txt", "/proj/Makefile"]
      from rfl]
    simp
  obtain ⟨st, h1, h2, h3⟩ := scan_extractor_error_local false (fun _ => none)
    exExtract exTree "/proj" "/proj/CMakeLists.txt" "boom" hmem rfl rfl
  have hmem2 : "/proj/Makefile" ∈ matchedFiles exTree "/proj" := by
    rw [show matchedFiles exTree "/proj" = ["/proj/CMakeLists.txt", "/proj/Makefile"]
      from rfl]
    simp
  exact ⟨hmem, st, h1, h2,
    h3 "/proj/Makefile" hmem2 [Dependency.simple "make-lib" ""] rfl rfl
      (Dependency.simple "make-lib" "") (by simp)⟩

/-- C8: the code intends to dispatch the submodule extractor on
`.gitmodules` (`detectFileType` maps it to the submodule kind), but the
walk classifies `.gitmodules` as hidden and skips it before dispatch, so
for a tree containing `.gitmodules` no extractor runs and the scan
result stays empty, whatever the extractor oracle would have
returned. -/
theorem gitmodules_skipped_as_hidden :
    IsHidden ".gitmodules" = true ∧
    detectFileType ".gitmodules" = some ExtractorKind.submodule ∧
    matchedFiles gitmodulesTree "/repo" = [] ∧
    ∀ (ec : Bool) (cl : String → Option (List Dependency))
      (ex : String → Except String (List Dependency)),
      Scanner.scan ec cl ex gitmodulesTree "/repo" = .ok ⟨[], []⟩ := by
  refine ⟨rfl, rfl, rfl, ?_⟩
  intro ec cl ex
  unfold Scanner.scan
  rw [scanVisit_eq]
  rfl

/-! ### Version normalization theorems (claim C4) -/

theorem splitOnChar_ne_nil (sep : Char) (l : List Char) : splitOnChar sep l ≠ [] := by
  cases l with
  | nil => simp [splitOnChar]
  | cons c t =>
    unfold splitOnChar
    by_cases h : c = sep
    · simp [h]
    · simp only [h, if_false]
      cases splitOnChar sep t <;> simp

theorem join_split (sep : Char) (l : List Char) :
    joinWithChar sep (splitOnChar sep l) = l := by
  induction l with
  | nil => rfl
  | cons c t ih =>
    unfold splitOnChar
    by_cases h : c = sep
    · subst h
      simp only [if_pos rfl]
      cases hs : splitOnChar c t with
      | nil => exact absurd hs (splitOnChar_ne_nil c t)
      | cons seg rest =>
        rw [hs] at ih
        cases rest with
        | nil => simp [joinWithChar] at ih ⊢; exact ih
        | cons y ys => simp [joinWithChar] at ih ⊢; exact ih
    · simp only [h, if_false]
      cases hs : splitOnChar sep t with
      | nil => exact absurd hs (splitOnChar_ne_nil sep t)
      | cons seg rest =>
        rw [hs] at ih
        cases rest with
        | nil => simp [joinWithChar] at ih ⊢; exact ih
        | cons y ys => simp [joinWithChar] at ih ⊢; exact ih

theorem splitOnChar_of_not_mem (sep : Char) (x : List Char) (h : sep ∉ x) :
    splitOnChar sep x = [x] := by
  induction x with
  | nil => rfl
  | cons c t ih =>
    unfold splitOnChar
    have hc : ¬ c = sep := by intro he; exact h (he ▸ List.mem_cons_self c t)
    have ht : sep ∉ t := fun hm => h (List.mem_cons_of_mem c hm)
    rw [if_neg hc, ih ht]

theorem splitOnChar_append (sep : Char) (x l : List Char) (h : sep ∉ x) :
    splitOnChar sep (x ++ sep :: l) = x :: splitOnChar sep l := by
  induction x with
  | nil => simp [splitOnChar]
  | cons c t ih =>
    have hc : ¬ c = sep := by intro he; exact h (he ▸ List.mem_cons_self c t)
    have ht : sep ∉ t := fun hm => h (List.mem_cons_of_mem c hm)
    have hih := ih ht
    simp only [List.cons_append, splitOnChar, if_neg hc, List.append_eq, hih]

theorem split_join (sep : Char) (parts : List (List Char)) (hne : parts ≠ [])
    (hfree : ∀ p ∈ parts, sep ∉ p) :
    splitOnChar sep (joinWithChar sep parts) = parts := by
  induction parts with
  | nil => exact absurd rfl hne
  | cons x rest ih =>
    cases rest with
    | nil =>
      simp only [joinWithChar]
      exact splitOnChar_of_not_mem sep x (hfree x (List.mem_cons_self x []))
    | cons y ys =>
      show splitOnChar sep (x ++ sep :: joinWithChar sep (y :: ys)) = _
      rw [splitOnChar_append sep x _ (hfree x (List.mem_cons_self _ _))]
      rw [ih (by simp) (fun p hp => hfree p (List.mem_cons_of_mem x hp))]

theorem padTo3_length (parts : List (List Char)) : 3 ≤ (padTo3 parts).length := by
  simp only [padTo3]
  split_ifs <;> simp_all

theorem padTo3_id (parts : List (List Char)) (h : 3 ≤ parts.length) :
    padTo3 parts = parts := by
  simp only [padTo3]
  split_ifs <;> first | rfl | (simp_all [List.length_append]; omega)

theorem padTo3_mem (parts : List (List Char)) (p : List Char)
    (h : p ∈ padTo3 parts) : p ∈ parts ∨ p = ['0'] := by
  simp only [padTo3] at h
  split_ifs at h <;> simp_all

theorem splitOnChar_parts_free (sep : Char) (l : List Char) :
    ∀ p ∈ splitOnChar sep l, sep ∉ p := by
  induction l with
  | nil => simp [splitOnChar]
  | cons c t ih =>
    unfold splitOnChar
    by_cases h : c = sep
    · simp only [h, if_pos rfl]
      intro p hp
      rcases List.mem_cons.mp hp with h1 | h1
      · subst h1; simp
      · exact ih p h1
    · simp only [h, if_false]
      cases hs : splitOnChar sep t with
      | nil => exact absurd hs (splitOnChar_ne_nil sep t)
      | cons seg rest =>
        intro p hp
        rcases List.mem_cons.mp hp with h1 | h1
        · subst h1
          intro hm
          rcases List.mem_cons.mp hm with h2 | h2
          · exact h h2.symm
          · exact ih seg (hs ▸ List.mem_cons_self seg rest) h2
        · exact ih p (hs ▸ List.mem_cons_of_mem seg h1)

theorem normalizeVersion_fixed (w : String)
    (h1 : ¬ ['v'].isPrefixOf w.data)
    (h2 : ¬ ("branch=".data).isPrefixOf w.data)
    (h3 : ¬ ("commit=".data).isPrefixOf w.data)
    (h4 : ¬ ['>', '='].isPrefixOf w.data)
    (h5 : containsDots w.data = false)
    (h6 : 3 ≤ (splitOnChar '.' w.data).length) :
    normalizeVersion w = w := by
  unfold normalizeVersion normalizeVersionL
  simp only [h1, Bool.false_eq_true, if_false]
  rw [if_neg (by push_neg; exact ⟨h2, h3⟩)]
  simp only [h4, Bool.false_eq_true, if_false, h5]
  rw [padTo3_id _ h6, join_split]

theorem normalizeVersion_min_parts (s : String) :
    3 ≤ (splitOnChar '.' (normalizeVersion s).data).length := by
  unfold normalizeVersion normalizeVersionL
  set v1 := if ['v'].isPrefixOf s.data then s.data.drop 1 else s.data with hv1
  by_cases hb : ("branch=".data).isPrefixOf v1 ∨ ("commit=".data).isPrefixOf v1
  · rw [if_pos hb]
    decide
  · rw [if_neg hb]
    set v2 := if ['>', '='].isPrefixOf v1 then v1.drop 2 else v1
    set v3 := if containsDots v2 then takeBeforeDots v2 else v2
    show 3 ≤ (splitOnChar '.' (String.data ⟨joinWithChar '.' (padTo3 (splitOnChar '.' v3))⟩)).length
    rw [show String.data ⟨joinWithChar '.' (padTo3 (splitOnChar '.' v3))⟩ =
        joinWithChar '.' (padTo3 (splitOnChar '.' v3)) from rfl]
    rw [split_join]
    · exact padTo3_length _
    · intro hnil
      have := padTo3_length (splitOnChar '.' v3)
      rw [hnil] at this
      simp at this
    · intro p hp
      rcases padTo3_mem _ p hp with h | h
      · exact splitOnChar_parts_free '.' v3 p h
      · subst h; decide

/-- C4, amended: `normalizeVersion` maps `branch=`/`commit=` references
(after the `v` strip) to exactly `0.0.0`, and every input to a dotted
string of at least three components (not necessarily numeric, and
possibly more than three); it is idempotent on every input whose
normalized form does not itself begin with `v`, `branch=`, `commit=` or
`>=` and does not contain `...` (but not in general). -/
theorem normalizeVersion_shape_idem :
    (∀ s : String,
      (("branch=".data).isPrefixOf
          (if ['v'].isPrefixOf s.data then s.data.drop 1 else s.data) ∨
        ("commit=".data).isPrefixOf
          (if ['v'].isPrefixOf s.data then s.data.drop 1 else s.data)) →
      normalizeVersion s = "0.0.0") ∧
    (∀ s : String, 3 ≤ (splitOnChar '.' (normalizeVersion s).data).length) ∧
    (∀ s : String,
      ¬ ['v'].isPrefixOf (normalizeVersion s).data →
      ¬ ("branch=".data).isPrefixOf (normalizeVersion s).data →
      ¬ ("commit=".data).isPrefixOf (normalizeVersion s).data →
      ¬ ['>', '='].isPrefixOf (normalizeVersion s).data →
      containsDots (normalizeVersion s).data = false →
      normalizeVersion (normalizeVersion s) = normalizeVersion s) := by
  refine ⟨?_, normalizeVersion_min_parts, ?_⟩
  · intro s hb
    unfold normalizeVersion normalizeVersionL
    rw [if_pos hb]
  · intro s h1 h2 h3 h4 h5
    exact normalizeVersion_fixed _ h1 h2 h3 h4 h5 (normalizeVersion_min_parts s)

theorem normalizeVersion_shape_idem_witness :
    normalizeVersion "branch=main" = "0.0.0" ∧
    3 ≤ (splitOnChar '.' (normalizeVersion "1.2").data).length ∧
    normalizeVersion (normalizeVersion "1.2") = normalizeVersion "1.2" := by
  exact ⟨normalizeVersion_shape_idem.1 "branch=main" (by decide),
    normalizeVersion_shape_idem.2.1 "1.2",
    normalizeVersion_shape_idem.2.2 "1.2" (by decide) (by decide) (by decide)
      (by decide) (by decide)⟩

/-- C4, counterexample: normalization is not idempotent
(`>=v1` normalizes to `v1.0.0`, which normalizes again to `1.0.0`), and
its output is neither always numeric (`abc` ↦ `abc.0.0`) nor always
three components (`1.2.3.4` keeps four). -/
theorem normalizeVersion_not_idempotent :
    normalizeVersion (normalizeVersion ">=v1") ≠ normalizeVersion ">=v1" ∧
    normalizeVersion ">=v1" = "v1.0.0" ∧
    normalizeVersion "abc" = "abc.0.0" ∧
    normalizeVersion "1.2.3.4" = "1.2.3.4" := by
  exact ⟨by decide, rfl, rfl, rfl⟩

/-! ### Analyzer conflict-detection theorems (claim C2) -/

theorem lookupA_mem {α : Type} {l : List (String × α)} {k : String} {v : α}
    (h : lookupA l k = some v) : (k, v) ∈ l := by
  induction l with
  | nil => simp [lookupA] at h
  | cons hd tl ih =>
    obtain ⟨k', v'⟩ := hd
    by_cases hk : k' = k
    · subst hk
      simp [lookupA] at h
      subst h
      exact List.mem_cons_self _ _
    · simp only [lookupA, if_neg hk] at h
      exact List.mem_cons_of_mem _ (ih h)

theorem lookupA_append_left {α : Type} {l : List (String × α)} {k : String} {v : α}
    (l' : List (String × α)) (h : lookupA l k = some v) :
    lookupA (l ++ l') k = some v := by
  induction l with
  | nil => simp [lookupA] at h
  | cons hd tl ih =>
    obtain ⟨k', v'⟩ := hd
    by_cases hk : k' = k
    · subst hk
      simp only [lookupA, if_pos rfl] at h ⊢
      exact h
    · simp only [List.cons_append, lookupA, if_neg hk] at h ⊢
      exact ih h

theorem lookupA_append_right {α : Type} {l : List (String × α)} {k : String}
    (l' : List (String × α)) (h : lookupA l k = none) :
    lookupA (l ++ l') k = lookupA l' k := by
  induction l with
  | nil => simp
  | cons hd tl ih =>
    obtain ⟨k', v'⟩ := hd
    by_cases hk : k' = k
    · simp [lookupA, hk] at h
    · simp only [lookupA, if_neg hk] at h
      simp only [List.cons_append, lookupA, if_neg hk]
      exact ih h

theorem lookupA_upsertA_ne {α : Type} {l : List (String × α)} {k k' : String}
    (v : α) (h : k' ≠ k) : lookupA (upsertA l k v) k' = lookupA l k' := by
  have hks : ¬ k = k' := fun he => h he.symm
  induction l with
  | nil => simp [upsertA, lookupA, hks]
  | cons hd tl ih =>
    obtain ⟨k0, v0⟩ := hd
    by_cases hk : k0 = k
    · subst hk
      simp [upsertA, lookupA, hks]
    · simp only [upsertA, if_neg hk, lookupA]
      by_cases hk' : k0 = k'
      · simp [hk']
      · simp only [if_neg hk']
        exact ih

theorem lookupA_two_keys {α : Type} {l : List (String × α)} {k1 k2 : String}
    {v1 v2 : α} (h1 : lookupA l k1 = some v1) (h2 : lookupA l k2 = some v2)
    (hne : k1 ≠ k2) : 1 < l.length := by
  cases l with
  | nil => simp [lookupA] at h1
  | cons hd tl =>
    cases tl with
    | cons _ _ => simp
    | nil =>
      obtain ⟨k, v⟩ := hd
      by_cases e1 : k = k1
      · have : ¬ k = k2 := fun he => hne (e1 ▸ he ▸ rfl)
        simp [lookupA, this] at h2
      · simp [lookupA, e1] at h1

theorem hasVer_vmAdd_self (m : VersionMap) (n v r : String) :
    hasVer (vmAdd m n v r) n v := by
  unfold hasVer
  cases hm : lookupA m n with
  | none =>
    refine ⟨[(v, [r])], ?_, [r], by simp [lookupA]⟩
    simp only [vmAdd, hm]
    rw [lookupA_append_right _ hm]
    simp [lookupA]
  | some inner =>
    cases hv : lookupA inner v with
    | none =>
      refine ⟨inner ++ [(v, [r])], ?_, [r], ?_⟩
      · simp only [vmAdd, hm, hv]
        exact lookupA_upsertA_self _ _ _
      · rw [lookupA_append_right _ hv]
        simp [lookupA]
    | some rs =>
      refine ⟨upsertA inner v (rs ++ [r]), ?_, rs ++ [r], lookupA_upsertA_self _ _ _⟩
      simp only [vmAdd, hm, hv]
      exact lookupA_upsertA_self _ _ _

theorem hasVer_vmAdd_mono {m : VersionMap} {a b : String} (n v r : String)
    (h : hasVer m a b) : hasVer (vmAdd m n v r) a b := by
  obtain ⟨inner, hin, rs, hrs⟩ := h
  cases hm : lookupA m n with
  | none =>
    refine ⟨inner, ?_, rs, hrs⟩
    simp only [vmAdd, hm]
    exact lookupA_append_left _ hin
  | some inner' =>
    by_cases ha : a = n
    · subst ha
      rw [hin] at hm
      cases hm
      cases hv : lookupA inner v with
      | none =>
        refine ⟨inner ++ [(v, [r])], ?_, rs, lookupA_append_left _ hrs⟩
        simp only [vmAdd, hin, hv]
        exact lookupA_upsertA_self _ _ _
      | some rs' =>
        refine ⟨upsertA inner v (rs' ++ [r]), ?_, ?_⟩
        · simp only [vmAdd, hin, hv]
          exact lookupA_upsertA_self _ _ _
        · by_cases hb : b = v
          · subst hb
            rw [hrs] at hv
            cases hv
            exact ⟨rs ++ [r], lookupA_upsertA_self _ _ _⟩
          · exact ⟨rs, by rw [lookupA_upsertA_ne _ hb]; exact hrs⟩
    · refine ⟨inner, ?_, rs, hrs⟩
      simp only [vmAdd, hm]
      cases hv : lookupA inner' v with
      | none => rw [lookupA_upsertA_ne _ ha]; exact hin
      | some rs' => rw [lookupA_upsertA_ne _ ha]; exact hin

theorem hasVer_childFold_mono {a b : String} (dep : Dependency)
    (children : List Dependency) :
    ∀ m : VersionMap, hasVer m a b →
    hasVer (children.foldl
      (fun m2 child => vmAdd m2 child.name child.version dep.name) m) a b := by
  induction children with
  | nil => intro m h; exact h
  | cons c cs ih =>
    intro m h
    exact ih _ (hasVer_vmAdd_mono _ _ _ h)

theorem hasVer_addDepVersions_mono {a b : String} (dep : Dependency)
    {m : VersionMap} (h : hasVer m a b) :
    hasVer (addDepVersions m dep) a b :=
  hasVer_childFold_mono dep dep.dependencies _ (hasVer_vmAdd_mono _ _ _ h)

theorem hasVer_addDepVersions_self (m : VersionMap) (dep : Dependency) :
    hasVer (addDepVersions m dep) dep.name dep.version :=
  hasVer_childFold_mono dep dep.dependencies _
    (hasVer_vmAdd_self m dep.name dep.version "root")

theorem hasVer_childFold_self {c : Dependency} (dep : Dependency)
    (children : List Dependency) (hc : c ∈ children) :
    ∀ m : VersionMap,
    hasVer (children.foldl
      (fun m2 child => vmAdd m2 child.name child.version dep.name) m)
      c.name c.version := by
  induction children with
  | nil => cases hc
  | cons d ds ih =>
    intro m
    rcases List.mem_cons.mp hc with h | h
    · subst h
      exact hasVer_childFold_mono dep ds _ (hasVer_vmAdd_self _ _ _ _)
    · exact ih h _

theorem hasVer_addDepVersions_child (m : VersionMap) (dep : Dependency)
    {c : Dependency} (hc : c ∈ dep.dependencies) :
    hasVer (addDepVersions m dep) c.name c.version :=
  hasVer_childFold_self dep dep.dependencies hc _

theorem hasVer_depFold_mono {a b : String} (deps : List Dependency) :
    ∀ m : VersionMap, hasVer m a b →
    hasVer (deps.foldl addDepVersions m) a b := by
  induction deps with
  | nil => intro m h; exact h
  | cons d ds ih => intro m h; exact ih _ (hasVer_addDepVersions_mono d h)

theorem hasVer_depFold_of_mem {deps : List Dependency} {d : Dependency}
    (hd : d ∈ deps) :
    ∀ m : VersionMap, hasVer (deps.foldl addDepVersions m) d.name d.version := by
  induction deps with
  | nil => cases hd
  | cons e es ih =>
    intro m
    rcases List.mem_cons.mp hd with h | h
    · subst h
      exact hasVer_depFold_mono es _ (hasVer_addDepVersions_self m d)
    · exact ih h _

theorem hasVer_depFold_of_child {deps : List Dependency} {d c : Dependency}
    (hd : d ∈ deps) (hc : c ∈ d.dependencies) :
    ∀ m : VersionMap, hasVer (deps.foldl addDepVersions m) c.name c.version := by
  induction deps with
  | nil => cases hd
  | cons e es ih =>
    intro m
    rcases List.mem_cons.mp hd with h | h
    · subst h
      exact hasVer_depFold_mono es _ (hasVer_addDepVersions_child m d hc)
    · exact ih h _

theorem depOccurs_hasVer {deps : List Dependency} {name version : String}
    (h : depOccurs deps name version) :
    hasVer (collectVersionMap deps) name version := by
  unfold collectVersionMap
  rcases h with ⟨d, hd, hn, hv⟩ | ⟨d, hd, c, hc, hn, hv⟩
  · subst hn; subst hv
    exact hasVer_depFold_of_mem hd []
  · subst hn; subst hv
    exact hasVer_depFold_of_child hd hc []

theorem mem_ne_one_lt_length {α : Type} {l : List α} {a b : α}
    (ha : a ∈ l) (hb : b ∈ l) (hne : a ≠ b) : 1 < l.length := by
  cases l with
  | nil => cases ha
  | cons x t =>
    cases t with
    | cons _ _ => simp
    | nil =>
      rcases List.mem_cons.mp ha with h | h
      · rcases List.mem_cons.mp hb with h' | h'
        · exact absurd (h.trans h'.symm) hne
        · cases h'
      · cases h

theorem sorted_head_le {l : List SemVer} (h : List.Sorted semverLE l) :
    ∀ x ∈ l, semverLE (l.head?.getD semverDefault) x := by
  cases l with
  | nil => intro x hx; cases hx
  | cons a t =>
    intro x hx
    rcases List.mem_cons.mp hx with h' | h'
    · subst h'; exact le_refl _
    · exact (List.sorted_cons.mp h).1 x h'

theorem sorted_le_last : ∀ (l : List SemVer), List.Sorted semverLE l →
    ∀ x ∈ l, semverLE x (l.getLast?.getD semverDefault)
  | [], _, x, hx => by cases hx
  | [a], _, x, hx => by
    rcases List.mem_cons.mp hx with h' | h'
    · subst h'; exact le_refl _
    · cases h'
  | a :: b :: t, h, x, hx => by
    have hs := List.sorted_cons.mp h
    have hlast : (a :: b :: t).getLast? = (b :: t).getLast? := by
      simp [List.getLast?_cons_cons]
    rw [hlast]
    rcases List.mem_cons.mp hx with h' | h'
    · subst h'
      exact le_trans (hs.1 b (List.mem_cons_self _ _))
        (sorted_le_last (b :: t) hs.2 b (List.mem_cons_self _ _))
    · exact sorted_le_last (b :: t) hs.2 x h'

theorem getLastD_mem : ∀ (l : List SemVer), l ≠ [] →
    l.getLast?.getD semverDefault ∈ l
  | [], h => absurd rfl h
  | [a], _ => by simp
  | a :: b :: t, _ => by
    have hlast : (a :: b :: t).getLast? = (b :: t).getLast? := by
      simp [List.getLast?_cons_cons]
    rw [hlast]
    exact List.mem_cons_of_mem _ (getLastD_mem (b :: t) (by simp))

theorem headD_mem : ∀ (l : List SemVer), l ≠ [] →
    l.head?.getD semverDefault ∈ l
  | [], h => absurd rfl h
  | a :: t, _ => by simp


/-- C2: whenever a name occurs (top-level or as a child) with two
distinct version strings whose normalized forms parse to non-equal
semantic versions, `Analyze` emits one conflict per recorded original
version of that name — carrying the original version, the rendering of
the newest normalized parse, the comma-joined requirers and the
dependency path to the package — and in particular at least one emitted
conflict names that package. -/
theorem analyzer_conflict_detection
    (deps : List Dependency) (name v1 v2 : String) (s1 s2 : SemVer)
    (h1 : depOccurs deps name v1) (h2 : depOccurs deps name v2)
    (hne : v1 ≠ v2)
    (hp1 : parseSemver (normalizeVersion v1) = some s1)
    (hp2 : parseSemver (normalizeVersion v2) = some s2)
    (hkey : s1.key ≠ s2.key) :
    ∃ inner, lookupA (collectVersionMap deps) name = some inner ∧
      (∀ pr ∈ inner,
        (⟨name, pr.1,
          (((inner.filterMap fun q => parseSemver (normalizeVersion q.1)).insertionSort
              semverLE).getLast?.getD semverDefault).render,
          joinComma pr.2,
          findDependencyPath (buildNodes deps) (buildEdges deps) name⟩ : VersionConflict)
          ∈ (DependencyAnalyzer.analyze deps).conflicts) ∧
      ∃ c ∈ (DependencyAnalyzer.analyze deps).conflicts, c.package = name := by
  obtain ⟨inner, hin, rs1, hrs1⟩ := depOccurs_hasVer h1
  obtain ⟨innerB, hinB, rs2, hrs2⟩ := depOccurs_hasVer h2
  rw [hin] at hinB
  cases hinB
  have hlen : 1 < inner.length := lookupA_two_keys hrs1 hrs2 hne
  have smem1 : s1 ∈ inner.filterMap fun q => parseSemver (normalizeVersion q.1) :=
    List.mem_filterMap.mpr ⟨(v1, rs1), lookupA_mem hrs1, hp1⟩
  have smem2 : s2 ∈ inner.filterMap fun q => parseSemver (normalizeVersion q.1) :=
    List.mem_filterMap.mpr ⟨(v2, rs2), lookupA_mem hrs2, hp2⟩
  have svne : s1 ≠ s2 := fun he => hkey (he ▸ rfl)
  have hslen : 1 <
      (inner.filterMap fun q => parseSemver (normalizeVersion q.1)).length :=
    mem_ne_one_lt_length smem1 smem2 svne
  have hsorted := List.sorted_insertionSort semverLE
    (inner.filterMap fun q => parseSemver (normalizeVersion q.1))
  have smem1' : s1 ∈ (inner.filterMap fun q =>
      parseSemver (normalizeVersion q.1)).insertionSort semverLE :=
    (List.mem_insertionSort _).mpr smem1
  have smem2' : s2 ∈ (inner.filterMap fun q =>
      parseSemver (normalizeVersion q.1)).insertionSort semverLE :=
    (List.mem_insertionSort _).mpr smem2
  have hh1 : (((inner.filterMap fun q => parseSemver (normalizeVersion q.1)).insertionSort
      semverLE).head?.getD semverDefault).key ≤ s1.key :=
    sorted_head_le hsorted s1 smem1'
  have hh2 : (((inner.filterMap fun q => parseSemver (normalizeVersion q.1)).insertionSort
      semverLE).head?.getD semverDefault).key ≤ s2.key :=
    sorted_head_le hsorted s2 smem2'
  have hl1 : s1.key ≤ (((inner.filterMap fun q =>
      parseSemver (normalizeVersion q.1)).insertionSort
      semverLE).getLast?.getD semverDefault).key :=
    sorted_le_last _ hsorted s1 smem1'
  have hl2 : s2.key ≤ (((inner.filterMap fun q =>
      parseSemver (normalizeVersion q.1)).insertionSort
      semverLE).getLast?.getD semverDefault).key :=
    sorted_le_last _ hsorted s2 smem2'
  have hheadne : (((inner.filterMap fun q =>
      parseSemver (normalizeVersion q.1)).insertionSort
      semverLE).head?.getD semverDefault).key ≠
      (((inner.filterMap fun q => parseSemver (normalizeVersion q.1)).insertionSort
      semverLE).getLast?.getD semverDefault).key := by
    intro heq
    apply hkey
    have e1 : s1.key = s2.key := by
      have a1 : s1.key ≤ s2.key := le_trans (le_trans hl1 heq.symm.le) hh2
      have a2 : s2.key ≤ s1.key := le_trans (le_trans hl2 heq.symm.le) hh1
      exact le_antisymm a1 a2
    exact e1
  have pc_eq : packageConflicts (buildNodes deps) (buildEdges deps) name inner =
      inner.map fun pr =>
        (⟨name, pr.1,
          (((inner.filterMap fun q => parseSemver (normalizeVersion q.1)).insertionSort
              semverLE).getLast?.getD semverDefault).render,
          joinComma pr.2,
          findDependencyPath (buildNodes deps) (buildEdges deps) name⟩ :
          VersionConflict) := by
    unfold packageConflicts
    rw [if_pos hlen, if_pos hslen, if_pos hheadne]
  have hblock : packageConflicts (buildNodes deps) (buildEdges deps) name inner ∈
      (collectVersionMap deps).map fun pr =>
        packageConflicts (buildNodes deps) (buildEdges deps) pr.1 pr.2 :=
    List.mem_map_of_mem _ (lookupA_mem hin)
  refine ⟨inner, hin, ?_, ?_⟩
  · intro pr hpr
    show _ ∈ detectVersionConflicts deps
    unfold detectVersionConflicts
    apply List.mem_flatten.mpr
    refine ⟨_, hblock, ?_⟩
    rw [pc_eq]
    exact List.mem_map_of_mem _ hpr
  · refine ⟨⟨name, v1,
      (((inner.filterMap fun q => parseSemver (normalizeVersion q.1)).insertionSort
          semverLE).getLast?.getD semverDefault).render,
      joinComma rs1,
      findDependencyPath (buildNodes deps) (buildEdges deps) name⟩, ?_, rfl⟩
    show _ ∈ detectVersionConflicts deps
    unfold detectVersionConflicts
    apply List.mem_flatten.mpr
    refine ⟨_, hblock, ?_⟩
    rw [pc_eq]
    exact List.mem_map_of_mem _ (lookupA_mem hrs1)

theorem analyzer_conflict_detection_witness :
    depOccurs confDeps "lib" "1.2" ∧ depOccurs confDeps "lib" "v2.0.0" ∧
    ("1.2" : String) ≠ "v2.0.0" ∧
    parseSemver (normalizeVersion "1.2") = some ⟨1, 2, 0, [], []⟩ ∧
    parseSemver (normalizeVersion "v2.0.0") = some ⟨2, 0, 0, [], []⟩ ∧
    ∃ c ∈ (DependencyAnalyzer.analyze confDeps).conflicts, c.package = "lib" := by
  have h1 : depOccurs confDeps "lib" "1.2" := by
    right
    exact ⟨Dependency.simple "app" "1.0.0" [Dependency.simple "lib" "1.2"],
      by simp [confDeps], Dependency.simple "lib" "1.2",
      by simp [Dependency.simple, Dependency.dependencies], by simp [Dependency.simple, Dependency.name], by simp [Dependency.simple, Dependency.version]⟩
  have h2 : depOccurs confDeps "lib" "v2.0.0" := by
    left
    exact ⟨Dependency.simple "lib" "v2.0.0", by simp [confDeps],
      by simp [Dependency.simple, Dependency.name], by simp [Dependency.simple, Dependency.version]⟩
  obtain ⟨inner, hin, hall, hc⟩ := analyzer_conflict_detection confDeps "lib"
    "1.2" "v2.0.0" ⟨1, 2, 0, [], []⟩ ⟨2, 0, 0, [], []⟩ h1 h2
    (by decide) rfl rfl (by decide)
  exact ⟨h1, h2, by decide, rfl, rfl, hc⟩

/-! ### Analyzer cycle-detection theorems (claim C3) -/

/-- C3, counterexample: with records `A→{B,C}`, `B→A`, `C→A` the graph
has the simple cycle `A→C→A`, but `detectCycles` returns only the
`A→B→A` cycle — after the first cycle aborts the DFS, the stale grey
flag on `A` makes the second DFS entry detect a revisit whose start is
not on the current path, so nothing is emitted.  No returned cycle even
contains `C`. -/
theorem cycles_miss_second_cycle :
    isSimpleCycle (buildEdges twoCycDeps) ["A", "C", "A"] ∧
    (DependencyAnalyzer.analyze twoCycDeps).cycles = [["A", "B", "A"]] ∧
    ∀ c ∈ (DependencyAnalyzer.analyze twoCycDeps).cycles, "C" ∉ c := by
  refine ⟨⟨by decide, by decide, by decide, by decide⟩, rfl, ?_⟩
  intro c hc
  rw [show (DependencyAnalyzer.analyze twoCycDeps).cycles = [["A", "B", "A"]]
    from rfl] at hc
  simp at hc
  subst hc
  decide

/-- C3, amended: on the E6 records `A→B`, `B→C`, `C→A` the analyzer
returns exactly one cycle, `[A,B,C,A]`, which is a simple cycle of the
graph and contains exactly the nodes `{A,B,C}`.  (In general the DFS
emits at most one cycle per entry and may miss simple cycles, as the
counterexample records.) -/
theorem cycles_triangle_found :
    (DependencyAnalyzer.analyze triDeps).cycles = [["A", "B", "C", "A"]] ∧
    isSimpleCycle (buildEdges triDeps) ["A", "B", "C", "A"] ∧
    (∀ x ∈ (["A", "B", "C", "A"] : List String), x ∈ (["A", "B", "C"] : List String)) ∧
    (∀ x ∈ (["A", "B", "C"] : List String), x ∈ (["A", "B", "C", "A"] : List String)) := by
  exact ⟨rfl, ⟨by decide, by decide, by decide, by decide⟩, by decide, by decide⟩

/-! ### Resolver theorems (claims C5 and C6) -/

theorem foldl_minimal_spec (rest : List SemVer) : ∀ acc : SemVer,
    ((rest.foldl (fun minimal v' => if v'.key < minimal.key then v' else minimal) acc)
        = acc ∨
      (rest.foldl (fun minimal v' => if v'.key < minimal.key then v' else minimal) acc)
        ∈ rest) ∧
    (rest.foldl (fun minimal v' => if v'.key < minimal.key then v' else minimal) acc).key
      ≤ acc.key ∧
    ∀ x ∈ rest,
      (rest.foldl (fun minimal v' => if v'.key < minimal.key then v' else minimal) acc).key
        ≤ x.key := by
  induction rest with
  | nil => intro acc; exact ⟨Or.inl rfl, le_refl _, by intro x hx; cases hx⟩
  | cons v' rest' ih =>
    intro acc
    simp only [List.foldl_cons]
    obtain ⟨hmem, hle, hall⟩ := ih (if v'.key < acc.key then v' else acc)
    by_cases hv : v'.key < acc.key
    · rw [if_pos hv] at hmem hle hall ⊢
      refine ⟨?_, le_trans hle (le_of_lt hv), ?_⟩
      · rcases hmem with h | h
        · exact Or.inr (by rw [h]; exact List.mem_cons_self _ _)
        · exact Or.inr (List.mem_cons_of_mem _ h)
      · intro x hx
        rcases List.mem_cons.mp hx with h | h
        · exact h ▸ hle
        · exact hall x h
    · rw [if_neg hv] at hmem hle hall ⊢
      refine ⟨?_, hle, ?_⟩
      · rcases hmem with h | h
        · exact Or.inl h
        · exact Or.inr (List.mem_cons_of_mem _ h)
      · intro x hx
        rcases List.mem_cons.mp hx with h | h
        · exact h ▸ le_trans hle (le_of_not_lt hv)
        · exact hall x h

theorem findMinimal_spec (l : List SemVer) (h : l ≠ []) :
    findMinimalVersion l ∈ l ∧ ∀ x ∈ l, (findMinimalVersion l).key ≤ x.key := by
  cases l with
  | nil => exact absurd rfl h
  | cons v rest =>
    simp only [findMinimalVersion]
    obtain ⟨hmem, hle, hall⟩ := foldl_minimal_spec rest v
    refine ⟨?_, ?_⟩
    · rcases hmem with h' | h'
      · rw [h']; exact List.mem_cons_self _ _
      · exact List.mem_cons_of_mem _ h'
    · intro x hx
      rcases List.mem_cons.mp hx with h' | h'
      · exact h' ▸ hle
      · exact hall x h'

/-- C5: for every ascending-sorted candidate list and constraint set
with at least one admissible candidate, `selectVersion` returns the
greatest admissible candidate under `newest`, the least under `oldest`,
and the least under `minimal`; concretely, with candidates
`{1.0.0, 1.1.0, 2.0.0}` and the constraint `>= 1.0`, `newest` yields
`2.0.0` and `minimal` yields `1.0.0`. -/
theorem resolver_select_version :
    (∀ (versions : List SemVer) (cs : List Constraints),
      List.Sorted semverLE versions →
      (∃ v ∈ versions, checkConstraints v cs = true) →
      (∃ m, Resolver.selectVersion versions cs .newest = .ok m ∧ m ∈ versions ∧
        checkConstraints m cs = true ∧
        ∀ v ∈ versions, checkConstraints v cs = true → semverLE v m) ∧
      (∃ m, Resolver.selectVersion versions cs .oldest = .ok m ∧ m ∈ versions ∧
        checkConstraints m cs = true ∧
        ∀ v ∈ versions, checkConstraints v cs = true → semverLE m v) ∧
      (∃ m, Resolver.selectVersion versions cs .minimal = .ok m ∧ m ∈ versions ∧
        checkConstraints m cs = true ∧
        ∀ v ∈ versions, checkConstraints v cs = true → semverLE m v)) ∧
    Resolver.selectVersion e5Versions [mkComparison ">=" ⟨1, 0, 0, [], []⟩] .newest
      = .ok ⟨2, 0, 0, [], []⟩ ∧
    Resolver.selectVersion e5Versions [mkComparison ">=" ⟨1, 0, 0, [], []⟩] .minimal
      = .ok ⟨1, 0, 0, [], []⟩ ∧
    semverNewConstraint ">= 1.0" = some (mkComparison ">=" ⟨1, 0, 0, [], []⟩) := by
  refine ⟨?_, rfl, rfl, rfl⟩
  intro versions cs hsort ⟨v0, hv0, hchk⟩
  have hne : versions ≠ [] := List.ne_nil_of_mem hv0
  have hv0c : v0 ∈ versions.filter fun v => checkConstraints v cs :=
    List.mem_filter.mpr ⟨hv0, hchk⟩
  have hcne : (versions.filter fun v => checkConstraints v cs) ≠ [] :=
    List.ne_nil_of_mem hv0c
  have hsortc : List.Sorted semverLE (versions.filter fun v => checkConstraints v cs) :=
    List.Pairwise.sublist (List.filter_sublist _) hsort
  unfold Resolver.selectVersion
  refine ⟨?_, ?_, ?_⟩
  · rw [if_neg hne, if_neg hcne]
    refine ⟨_, rfl, ?_, ?_, ?_⟩
    · exact (List.mem_filter.mp (getLastD_mem _ hcne)).1
    · exact (List.mem_filter.mp (getLastD_mem _ hcne)).2
    · intro v hv hvc
      exact sorted_le_last _ hsortc v (List.mem_filter.mpr ⟨hv, hvc⟩)
  · rw [if_neg hne, if_neg hcne]
    refine ⟨_, rfl, ?_, ?_, ?_⟩
    · exact (List.mem_filter.mp (headD_mem _ hcne)).1
    · exact (List.mem_filter.mp (headD_mem _ hcne)).2
    · intro v hv hvc
      exact sorted_head_le hsortc v (List.mem_filter.mpr ⟨hv, hvc⟩)
  · rw [if_neg hne, if_neg hcne]
    obtain ⟨hm, hall⟩ := findMinimal_spec _ hcne
    refine ⟨_, rfl, (List.mem_filter.mp hm).1, (List.mem_filter.mp hm).2, ?_⟩
    intro v hv hvc
    exact hall v (List.mem_filter.mpr ⟨hv, hvc⟩)

theorem resolver_select_version_witness :
    List.Sorted semverLE e5Versions ∧
    (∃ v ∈ e5Versions,
      checkConstraints v [mkComparison ">=" ⟨1, 0, 0, [], []⟩] = true) ∧
    (∃ m, Resolver.selectVersion e5Versions [mkComparison ">=" ⟨1, 0, 0, [], []⟩]
        .newest = .ok m ∧ m ∈ e5Versions ∧
      checkConstraints m [mkComparison ">=" ⟨1, 0, 0, [], []⟩] = true ∧
      ∀ v ∈ e5Versions,
        checkConstraints v [mkComparison ">=" ⟨1, 0, 0, [], []⟩] = true →
        semverLE v m) := by
  have hs : List.Sorted semverLE e5Versions := by decide
  have hex : ∃ v ∈ e5Versions,
      checkConstraints v [mkComparison ">=" ⟨1, 0, 0, [], []⟩] = true :=
    ⟨⟨1, 0, 0, [], []⟩, by decide, by decide⟩
  exact ⟨hs, hex,
    (resolver_select_version.1 e5Versions [mkComparison ">=" ⟨1, 0, 0, [], []⟩]
      hs hex).1⟩

/-- C6: on records forming the cycle `A→B→A`, `Resolve` with
`Strict: true` fails with the cycle error — and with `Strict: false` it
*also* fails, because `topologicalSort`'s grey-marking aborts on the
cycle unconditionally, so non-strict resolution never reaches the
unresolved-list path for cyclic input. -/
theorem resolver_cycle_strictness :
    Resolver.resolve cycResolveDeps ⟨.newest, true⟩ =
      .error "circular dependencies detected" ∧
    Resolver.resolve cycResolveDeps ⟨.newest, false⟩ =
      .error "failed to sort dependencies" := by
  exact ⟨rfl, rfl⟩
